import Mathlib

/-!
Verification development for the Script-Manager backend
(`backend/app/services/{scanner,watch,fts,similarity}.py` and
`backend/app/routes/folder_roots.py`), as a shallow embedding in Lean 4.

Conventions used throughout:
* Python strings are modelled as Lean `String` / `List Char`.
* Machine-level SHA-256 digests are modelled by an injective stand-in
  (`pySha256`), since no claim depends on the digest bits, only on
  digest equality/non-emptiness.
* Fallible Python code is modelled with `Option` / `Except`.
* sqlite rows are modelled as Lean structures; the `scripts` table is a
  list of rows plus the AUTOINCREMENT counter.
-/

namespace ScriptManager

/-! ## Python datetime model

Models the parts of `datetime.datetime` used by the repository:
`datetime.fromtimestamp` values (naive), `datetime.fromisoformat`,
`isoformat(sep)` and the sqlite default datetime adapter (which stores
`val.isoformat(" ")`).  A timezone-aware value carries its UTC offset in
minutes. -/

structure PyDateTime where
  year : Nat
  month : Nat
  day : Nat
  hour : Nat
  minute : Nat
  second : Nat
  microsecond : Nat
  tzOffsetMinutes : Option Int
  deriving Repr, DecidableEq

/-- Decimal digit to character. -/
def digChar : Nat → Char
  | 0 => '0' | 1 => '1' | 2 => '2' | 3 => '3' | 4 => '4'
  | 5 => '5' | 6 => '6' | 7 => '7' | 8 => '8' | 9 => '9'
  | _ => '?'

/-- Character to decimal digit, if it is one. -/
def charDigit? (c : Char) : Option Nat :=
  if '0' ≤ c ∧ c ≤ '9' then some (c.toNat - '0'.toNat) else none

/-- Two-digit zero-padded decimal (as printed by %02d for values below 100). -/
def pad2 (n : Nat) : List Char := [digChar (n / 10), digChar (n % 10)]

/-- Four-digit zero-padded decimal (as printed by %04d for values below 10000). -/
def pad4 (n : Nat) : List Char :=
  [digChar (n / 1000), digChar (n / 100 % 10), digChar (n / 10 % 10), digChar (n % 10)]

/-- Six-digit zero-padded decimal (as printed by %06d for values below 1000000). -/
def pad6 (n : Nat) : List Char :=
  [digChar (n / 100000), digChar (n / 10000 % 10), digChar (n / 1000 % 10),
   digChar (n / 100 % 10), digChar (n / 10 % 10), digChar (n % 10)]

/-- UTC offset suffix of `datetime.isoformat`: empty for a naive value,
otherwise the sign followed by zero-padded hours and minutes. -/
def offsetChars : Option Int → List Char
  | none => []
  | some o =>
      (if 0 ≤ o then ['+'] else ['-']) ++ pad2 (o.natAbs / 60) ++ [':'] ++ pad2 (o.natAbs % 60)

/-- Model of `datetime.isoformat(sep)`: the fractional part is printed
exactly when `microsecond` is nonzero, the offset exactly when the value
is timezone-aware. -/
def pyIsoformat (sep : Char) (d : PyDateTime) : List Char :=
  pad4 d.year ++ ['-'] ++ pad2 d.month ++ ['-'] ++ pad2 d.day ++ [sep] ++
  pad2 d.hour ++ [':'] ++ pad2 d.minute ++ [':'] ++ pad2 d.second ++
  (if d.microsecond ≠ 0 then '.' :: pad6 d.microsecond else []) ++
  offsetChars d.tzOffsetMinutes

/-- Model of the sqlite3 default `datetime` adapter, which stores
`val.isoformat(" ")` as TEXT. -/
def pyAdaptDatetime (d : PyDateTime) : String :=
  String.mk (pyIsoformat ' ' d)

/-- Reads a run of leading decimal digits. -/
def takeDigits : List Char → List Char × List Char
  | [] => ([], [])
  | c :: cs =>
      if (charDigit? c).isSome then
        let (ds, rest) := takeDigits cs
        (c :: ds, rest)
      else ([], c :: cs)

/-- Numeric value of a digit string. -/
def digitsToNat? : List Char → Option Nat
  | [] => some 0
  | c :: cs => do
      let d ← charDigit? c
      let r ← digitsToNat? cs
      pure (d * 10 ^ cs.length + r)

/-- Parses the optional `+HH:MM` / `-HH:MM` offset tail accepted by
`datetime.fromisoformat` for the timestamp shapes this system produces
(offsets with a seconds field do not occur here and are not modelled). -/
def parseOffset : List Char → Option (Option Int)
  | [] => some none
  | [s, h1, h2, ':', m1, m2] =>
      match charDigit? h1, charDigit? h2, charDigit? m1, charDigit? m2 with
      | some a, some b, some c, some d =>
          if a * 10 + b ≤ 23 ∧ c * 10 + d ≤ 59 then
            if s = '+' then some (some ((a * 10 + b) * 60 + (c * 10 + d)))
            else if s = '-' then some (some (-(((a * 10 + b) * 60 + (c * 10 + d) : Nat) : Int)))
            else none
          else none
      | _, _, _, _ => none
  | _ => none

/-- Two decimal digit characters to their value. -/
def dig2? (a b : Char) : Option Nat :=
  match charDigit? a, charDigit? b with
  | some x, some y => some (x * 10 + y)
  | _, _ => none

/-- Four decimal digit characters to their value. -/
def dig4? (a b c d : Char) : Option Nat :=
  match charDigit? a, charDigit? b, charDigit? c, charDigit? d with
  | some x, some y, some z, some w => some (((x * 10 + y) * 10 + z) * 10 + w)
  | _, _, _, _ => none

/-- Parses the optional fractional-second part: a dot followed by at
least one digit, truncated to six digits and right-padded with zeros,
as in CPython. -/
def parseFrac : List Char → Option (Nat × List Char)
  | '.' :: more =>
      let p := takeDigits more
      if p.1 = [] then none
      else
        match digitsToNat? ((p.1 ++ List.replicate 6 '0').take 6) with
        | some v => some (v, p.2)
        | none => none
  | other => some (0, other)

/-- Field range checks mirroring the `datetime.datetime` constructor
(the per-month day bound is abstracted to 31). -/
def mkDateTime (y mo dd hh mi ss micro : Nat) (off : Option Int) : Option PyDateTime :=
  if 1 ≤ mo ∧ mo ≤ 12 ∧ 1 ≤ dd ∧ dd ≤ 31 ∧ hh ≤ 23 ∧ mi ≤ 59 ∧ ss ≤ 59 then
    some ⟨y, mo, dd, hh, mi, ss, micro, off⟩
  else none

/-- Combines fraction, offset and field checks for `parseIsoChars`. -/
def parseTail (y mo dd hh mi ss : Nat) (rest : List Char) : Option PyDateTime :=
  match parseFrac rest with
  | some (micro, offRest) =>
      match parseOffset offRest with
      | some off => mkDateTime y mo dd hh mi ss micro off
      | none => none
  | none => none

/-- Model of `datetime.fromisoformat` restricted to the full
`YYYY-MM-DD(T| )HH:MM:SS[.f+][+HH:MM]` timestamp grammar, which covers
every timestamp this system writes or normalizes. -/
def parseIsoChars : List Char → Option PyDateTime
  | y1 :: y2 :: y3 :: y4 :: '-' :: m1 :: m2 :: '-' :: d1 :: d2 :: sep ::
      h1 :: h2 :: ':' :: n1 :: n2 :: ':' :: s1 :: s2 :: rest =>
    if sep = ' ' ∨ sep = 'T' then
      match dig4? y1 y2 y3 y4, dig2? m1 m2, dig2? d1 d2, dig2? h1 h2,
            dig2? n1 n2, dig2? s1 s2 with
      | some y, some mo, some dd, some hh, some mi, some ss =>
          parseTail y mo dd hh mi ss rest
      | _, _, _, _, _, _ => none
    else none
  | _ => none

/-- Model of the Python single-character replacement
`value.replace("Z", "+00:00")`. -/
def replaceZ (cs : List Char) : List Char :=
  cs.flatMap (fun c => if c = 'Z' then ['+', '0', '0', ':', '0', '0'] else [c])

/-- Possible runtime types of the `mtime` values compared by the
reconciler: Python `None`, a `datetime` object (fresh scan result), or a
string (as read back from sqlite).  Other runtime types fall into the
final `str(value)` branch of the source and do not occur here. -/
inductive MTimeValue where
  | none
  | dt (d : PyDateTime)
  | str (s : String)
  deriving Repr, DecidableEq

/-- Model of `_normalize_mtime` from `backend/app/routes/folder_roots.py`:
datetime values are truncated to whole seconds and formatted with a
space separator; strings have `Z` replaced by `+00:00`, are parsed with
`fromisoformat`, truncated and re-formatted, with parse failure
returning the original string unchanged; `None` maps to `None`. -/
def _normalize_mtime : MTimeValue → Option String
  | .none => Option.none
  | .dt d => some (String.mk (pyIsoformat ' ' { d with microsecond := 0 }))
  | .str s =>
      match parseIsoChars (replaceZ s.data) with
      | some d => some (String.mk (pyIsoformat ' ' { d with microsecond := 0 }))
      | Option.none => some s

/-- Validity of a UTC offset: strictly below 24 hours in magnitude. -/
def validOffset : Option Int → Prop
  | none => True
  | some o => o.natAbs < 1440

instance validOffset.dec : (o : Option Int) → Decidable (validOffset o)
  | none => isTrue trivial
  | some o => inferInstanceAs (Decidable (o.natAbs < 1440))

/-- Validity of a Python datetime value: the constructor invariants of
`datetime.datetime` (with the per-month day bound abstracted to 31) plus
a strict 24-hour bound on the UTC offset. -/
def ValidDT (d : PyDateTime) : Prop :=
  1 ≤ d.year ∧ d.year ≤ 9999 ∧ 1 ≤ d.month ∧ d.month ≤ 12 ∧ 1 ≤ d.day ∧ d.day ≤ 31 ∧
  d.hour ≤ 23 ∧ d.minute ≤ 59 ∧ d.second ≤ 59 ∧ d.microsecond ≤ 999999 ∧
  validOffset d.tzOffsetMinutes

instance ValidDT.dec (d : PyDateTime) : Decidable (ValidDT d) := by
  unfold ValidDT
  infer_instance

/-! ## Catalog data model

`Script` models one row of the `scripts` table (`backend/app/db/database.py`).
The `mtime` column is TEXT as stored by the sqlite datetime adapter.
`ScanFile` models one metadata dict produced by `scan_directory`
(`backend/app/services/scanner.py`).  `ScriptsTable` is the table rows in
insertion order plus the AUTOINCREMENT counter. -/

structure Script where
  id : Nat
  rootId : Nat
  path : String
  name : String
  extension : String
  language : Option String
  size : Nat
  mtime : String
  hash : String
  lineCount : Nat
  missing : Bool
  deriving Repr, DecidableEq

structure ScanFile where
  path : String
  name : String
  extension : String
  language : Option String
  size : Nat
  mtime : PyDateTime
  hash : String
  lineCount : Nat
  deriving Repr, DecidableEq

structure ScriptsTable where
  rows : List Script
  nextId : Nat
  deriving Repr, DecidableEq

/-- Model of the whole-file SHA-256 digest: an injective, always
non-empty stand-in for the hex digest (no claim depends on the digest
bits, only on equality and non-emptiness; collisions are assumed
absent). -/
def pySha256 (content : String) : String :=
  "sha256:" ++ content

/-! ## Watch Manager catalog mutations (`backend/app/services/watch.py`) -/

/-- Model of `ScriptFileHandler._mark_file_missing`: the single UPDATE
`UPDATE scripts SET missing_flag = 1 WHERE path = ?`. -/
def _mark_file_missing (tbl : ScriptsTable) (path : String) : ScriptsTable :=
  { tbl with
    rows := tbl.rows.map (fun r => if r.path = path then { r with missing := true } else r) }

/-- Row contents written by the scan/watch UPDATE statements (all derived
fields plus `missing_flag = 0`; `id`, `root_id`, `path`, `created_at`
are left alone). -/
def scriptUpdatedFields (s : ScanFile) (r : Script) : Script :=
  { r with
    name := s.name, extension := s.extension, language := s.language,
    size := s.size, mtime := pyAdaptDatetime s.mtime, hash := s.hash,
    lineCount := s.lineCount, missing := false }

/-- Fresh row inserted by the scan/watch INSERT statements. -/
def insertedScript (id rootId : Nat) (s : ScanFile) : Script :=
  ⟨id, rootId, s.path, s.name, s.extension, s.language, s.size,
   pyAdaptDatetime s.mtime, s.hash, s.lineCount, false⟩

/-- Model of the database effect of `ScriptFileHandler._update_file`
for a create/modify watch event, given the extracted single-file
metadata: upsert by `path`, clearing `missing_flag` (the UPDATE is
`WHERE path = ?`). -/
def watchUpsert (rootId : Nat) (m : ScanFile) (tbl : ScriptsTable) : ScriptsTable :=
  match tbl.rows.find? (fun r => r.path = m.path) with
  | some _ =>
      { tbl with
        rows := tbl.rows.map (fun r => if r.path = m.path then scriptUpdatedFields m r else r) }
  | none =>
      { rows := tbl.rows ++ [insertedScript tbl.nextId rootId m],
        nextId := tbl.nextId + 1 }

/-! ## Duplicate detection (`backend/app/services/scanner.py`,
`get_duplicate_scripts`) -/

/-- Concatenation with a single-character separator, as in sqlite
GROUP_CONCAT(x, sep) over the grouped rows in row order. -/
def joinSep (sep : Char) : List (List Char) → List Char
  | [] => []
  | [x] => x
  | x :: y :: xs => x ++ sep :: joinSep sep (y :: xs)

/-- Splitting at every occurrence of a separator character, as in the
Python `str.split(sep)` for a one-character separator. -/
def splitSep (sep : Char) : List Char → List (List Char)
  | [] => [[]]
  | c :: cs =>
      match splitSep sep cs with
      | g :: gs => if c = sep then [] :: g :: gs else (c :: g) :: gs
      | [] => [[c]]

/-- String-level GROUP_CONCAT. -/
def sqlGroupConcat (sep : Char) (items : List String) : String :=
  String.mk (joinSep sep (items.map String.data))

/-- String-level Python split. -/
def pySplit (sep : Char) (s : String) : List String :=
  (splitSep sep s.data).map String.mk

/-- One result row of `get_duplicate_scripts`. -/
structure DupGroup where
  hash : String
  count : Nat
  paths : List String
  deriving Repr, DecidableEq

/-- Model of `get_duplicate_scripts`: rows with a non-empty, non-null
hash and a clear missing flag, grouped by hash, keeping groups of more
than one row, ordered by count descending; the per-group paths go
through GROUP_CONCAT and a Python split, as in the source.  The sqlite
group enumeration order among equal counts is unspecified and modelled
as a fixed stable order; no claim depends on it. -/
def get_duplicate_scripts (tbl : ScriptsTable) : List DupGroup :=
  let elig := tbl.rows.filter (fun r => r.hash ≠ "" ∧ r.missing = false)
  let keys := (elig.map (fun r => r.hash)).dedup
  let gs := keys.filterMap (fun h =>
    let members := elig.filter (fun r => r.hash = h)
    if 2 ≤ members.length then
      some (⟨h, members.length,
             pySplit '|' (sqlGroupConcat '|' (members.map (fun r => r.path)))⟩ : DupGroup)
    else none)
  List.insertionSort (fun g1 g2 => g2.count ≤ g1.count) gs

/-! ## Reconciler (`backend/app/routes/folder_roots.py`,
`_perform_scan_background` lines 110-199)

The directory walk itself is modelled separately by `scan_directory`;
the functions here model the catalog reconciliation given the walk
result, which is what claims C3 and C4 are about. -/

/-- Scan counts recorded on the ScanEvent at the single finalization
point of a successful scan. -/
structure ScanCounts where
  newCount : Nat
  updatedCount : Nat
  deletedCount : Nat
  deriving Repr, DecidableEq

/-- Model of the per-file reconciliation step of
`_perform_scan_background`: look up the existing row by path
(`fetchone`), update all derived fields if hash or normalized mtime
changed, otherwise just clear the missing flag, and insert a fresh row
when the path is new.  The UPDATE statements are `WHERE id = ?`. -/
def processScanFile (rootId : Nat) (st : ScriptsTable × Nat × Nat) (s : ScanFile) :
    ScriptsTable × Nat × Nat :=
  let tbl := st.1
  match tbl.rows.find? (fun r => r.path = s.path) with
  | some existing =>
      if existing.hash ≠ s.hash ∨
         _normalize_mtime (.str existing.mtime) ≠ _normalize_mtime (.dt s.mtime) then
        ({ tbl with
           rows := tbl.rows.map (fun r => if r.id = existing.id then scriptUpdatedFields s r else r) },
         st.2.1, st.2.2 + 1)
      else
        ({ tbl with
           rows := tbl.rows.map (fun r => if r.id = existing.id then { r with missing := false } else r) },
         st.2.1, st.2.2)
  | none =>
      ({ rows := tbl.rows ++ [insertedScript tbl.nextId rootId s],
         nextId := tbl.nextId + 1 },
       st.2.1 + 1, st.2.2)

/-- Model of the missing-marking phase of `_perform_scan_background`:
the rows of the scanned root with a clear missing flag are fetched once,
then every fetched row whose path is not in the scan result set is
flagged missing (`UPDATE ... WHERE id = ?`) and counted. -/
def markMissingPhase (rootId : Nat) (scannedPaths : List String) (tbl : ScriptsTable) :
    ScriptsTable × Nat :=
  let targets := tbl.rows.filter (fun r => r.rootId = rootId ∧ r.missing = false)
  targets.foldl
    (fun acc row =>
      if row.path ∉ scannedPaths then
        ({ acc.1 with
           rows := acc.1.rows.map (fun r => if r.id = row.id then { r with missing := true } else r) },
         acc.2 + 1)
      else acc)
    (tbl, 0)

/-- Model of the reconciliation performed by `_perform_scan_background`
on a successful scan: process every scanned file, then mark missing
rows, returning the catalog and the counts written to the ScanEvent at
finalization. -/
def performScan (rootId : Nat) (files : List ScanFile) (tbl : ScriptsTable) :
    ScriptsTable × ScanCounts :=
  let p1 := files.foldl (processScanFile rootId) (tbl, 0, 0)
  let p2 := markMissingPhase rootId (files.map (fun s => s.path)) p1.1
  (p2.1, ⟨p1.2.1, p1.2.2, p2.2⟩)

/-! ## Python string helpers shared by scanner, fts and similarity -/

/-- Whitespace characters stripped by `str.strip()` (ASCII range; the
repository content is ASCII). -/
def isPySpace (c : Char) : Bool :=
  c = ' ' ∨ c = '\t' ∨ c = '\n' ∨ c = '\r' ∨ c = '\u000B' ∨ c = '\u000C'

/-- Model of `str.strip()`. -/
def pyStrip (s : String) : String :=
  String.mk (((s.data.dropWhile isPySpace).reverse.dropWhile isPySpace).reverse)

/-- Model of `str.lower()` (ASCII case mapping). -/
def pyLower (s : String) : String :=
  String.mk (s.data.map Char.toLower)

/-- Model of `pathlib.PurePath.name`: the component after the last
slash. -/
def pyBasename (s : String) : String :=
  String.mk ((s.data.reverse.takeWhile (fun c => c ≠ '/')).reverse)

/-- Model of `pathlib.PurePath.suffix`: the final extension with its
dot, empty when the name has no dot, starts with its only dot, or ends
with a dot. -/
def pySuffix (s : String) : String :=
  let nm := (pyBasename s).data
  if '.' ∈ nm then
    let after := (nm.reverse.takeWhile (fun c => c ≠ '.')).reverse
    let i := nm.length - 1 - after.length
    if 0 < i ∧ after ≠ [] then String.mk ('.' :: after) else ""
  else ""

/-- Number of lines seen when iterating a text file, as in
`sum(1 for _ in f)`: newline count, plus one for a non-empty final
chunk without a trailing newline. -/
def pyLineCount (content : String) : Nat :=
  if content = "" then 0
  else content.data.count '\n' + (if content.data.getLast? = some '\n' then 0 else 1)

/-! ## Scanner (`backend/app/services/scanner.py`) -/

/-- Extension to language table (`EXTENSION_LANGUAGE_MAP`). -/
def EXTENSION_LANGUAGE_MAP : List (String × String) :=
  [(".py", "Python"), (".ps1", "PowerShell"), (".psm1", "PowerShell"),
   (".sh", "Bash"), (".bat", "Batch"), (".cmd", "Batch"), (".sql", "SQL"),
   (".js", "JavaScript"), (".ts", "TypeScript"), (".yml", "YAML"),
   (".yaml", "YAML"), (".json", "JSON"), (".tf", "Terraform"),
   (".rb", "Ruby"), (".pl", "Perl"), (".php", "PHP"), (".go", "Go"),
   (".rs", "Rust"), (".java", "Java"), (".cs", "C#"), (".cpp", "C++"),
   (".c", "C"), (".r", "R")]

/-- Model of `detect_language`. -/
def detect_language (filePath : String) : Option String :=
  (EXTENSION_LANGUAGE_MAP.find? (fun kv => kv.1 = pyLower (pySuffix filePath))).map (fun kv => kv.2)

/-- Model of `is_script_file`. -/
def is_script_file (filePath : String) : Bool :=
  (detect_language filePath).isSome

/-- Scan of a character class body, stopping at the closing bracket;
returns the members and the number of characters consumed (members plus
the bracket). -/
def scanToBracket : List Char → Option (List Char × Nat)
  | [] => none
  | ']' :: _ => some ([], 1)
  | c :: t => (scanToBracket t).map (fun p => (c :: p.1, p.2 + 1))

/-- Splits a glob character class after the opening bracket into
(negated, members, consumed-count); a leading exclamation mark negates,
a leading closing bracket is a literal member, and an unterminated
class fails (the bracket is then a literal, as in
`fnmatch.translate`). -/
def classSplit (cs : List Char) : Option (Bool × List Char × Nat) :=
  match cs with
  | '!' :: ']' :: t => (scanToBracket t).map (fun q => (true, ']' :: q.1, q.2 + 2))
  | '!' :: t => (scanToBracket t).map (fun q => (true, q.1, q.2 + 1))
  | ']' :: t => (scanToBracket t).map (fun q => (false, ']' :: q.1, q.2 + 1))
  | t => (scanToBracket t).map (fun q => (false, q.1, q.2))

/-- Membership in a glob character class, with codepoint ranges; a dash
in last position is a literal. -/
def classHas (c : Char) : List Char → Bool
  | a :: '-' :: b :: rest => (a.toNat ≤ c.toNat ∧ c.toNat ≤ b.toNat) || classHas c rest
  | a :: rest => c = a || classHas c rest
  | [] => false

/-- Model of `fnmatch.fnmatch` on POSIX (where `normcase` is the
identity): glob matching with star, question mark and character
classes. -/
def globMatch : List Char → List Char → Bool
  | [], [] => true
  | [], _ :: _ => false
  | '*' :: ps, ts =>
      globMatch ps ts ||
        (match ts with
         | [] => false
         | _ :: ts2 => globMatch ('*' :: ps) ts2)
  | '?' :: ps, _ :: ts => globMatch ps ts
  | '[' :: ps, t :: ts =>
      (match classSplit ps with
       | some (neg, members, k) =>
           (if neg then !(classHas t members) else classHas t members) &&
             globMatch (ps.drop k) ts
       | none => ('[' = t) && globMatch ps ts)
  | p :: ps, t :: ts => p = t && globMatch ps ts
  | _ :: _, [] => false
  termination_by ps ts => (ps.length, ts.length)

/-- Model of `match_patterns`: a falsy pattern string matches
everything; otherwise the comma-separated patterns are stripped and any
one of them may match the full path or the bare name. -/
def match_patterns (path : String) (patterns : Option String) : Bool :=
  match patterns with
  | none => true
  | some ps =>
      if ps = "" then true
      else
        let pl := ((pySplit ',' ps).map pyStrip).filter (fun p => p ≠ "")
        pl.any (fun pat =>
          globMatch pat.data path.data || globMatch pat.data (pyBasename path).data)

/-- Filesystem tree for the scanner model.  A file carries whether
`stat` succeeds, its size and mtime, and its content (`none` when
opening or reading raises, as for a permission error or a race-deleted
file).  A directory carries whether `iterdir` succeeds. -/
inductive FSEntry where
  | file (name : String) (isSymlink : Bool) (statOk : Bool) (size : Nat)
      (mtime : PyDateTime) (content : Option String)
  | dir (name : String) (isSymlink : Bool) (permOk : Bool) (entries : List FSEntry)
  deriving Repr

/-- Name of a tree node. -/
def FSEntry.fsName : FSEntry → String
  | .file n _ _ _ _ _ => n
  | .dir n _ _ _ => n

/-- Whether a tree node is a symlink. -/
def FSEntry.fsSymlink : FSEntry → Bool
  | .file _ sl _ _ _ _ => sl
  | .dir _ sl _ _ => sl

/-- Scan configuration slice used by `scan_directory`. -/
structure ScanConfig where
  recursive : Bool
  includePatterns : Option String
  excludePatterns : Option String
  followSymlinks : Bool
  maxFileSize : Nat
  deriving Repr, DecidableEq

/-- Truthiness of the exclude/include pattern value (`None` and the
empty string are falsy in the source guards). -/
def patternsActive : Option String → Bool
  | none => false
  | some s => s ≠ ""

/-- Model of `get_file_hash`: the streamed SHA-256 digest, or the empty
string when any exception occurs while opening or reading. -/
def get_file_hash (content : Option String) : String :=
  match content with
  | some c => pySha256 c
  | none => ""

/-- Model of `get_line_count`: best-effort line count, zero when
reading fails. -/
def get_line_count (content : Option String) : Nat :=
  match content with
  | some c => pyLineCount c
  | none => 0

mutual

/-- Model of the per-item body of `scan_path`: exclusion is checked
first, then the symlink skip, then directories recurse (when
`recursive`), then files are filtered by script extension, include
patterns and size, and a per-file stat failure silently drops the
file. -/
def scanEntry (cfg : ScanConfig) (parent : String) : FSEntry → List ScanFile
  | .dir nm sl permOk entries =>
      if patternsActive cfg.excludePatterns ∧
         match_patterns (parent ++ "/" ++ nm) cfg.excludePatterns then []
      else if sl ∧ ¬cfg.followSymlinks then []
      else if cfg.recursive then
        if permOk then scanList cfg (parent ++ "/" ++ nm) entries else []
      else []
  | .file nm sl statOk size mtime content =>
      if patternsActive cfg.excludePatterns ∧
         match_patterns (parent ++ "/" ++ nm) cfg.excludePatterns then []
      else if sl ∧ ¬cfg.followSymlinks then []
      else if ¬is_script_file (parent ++ "/" ++ nm) then []
      else if patternsActive cfg.includePatterns ∧
              ¬match_patterns (parent ++ "/" ++ nm) cfg.includePatterns then []
      else if ¬statOk then []
      else if cfg.maxFileSize < size then []
      else
        [⟨parent ++ "/" ++ nm, nm, pyLower (pySuffix (parent ++ "/" ++ nm)),
          detect_language (parent ++ "/" ++ nm),
          size, mtime, get_file_hash content, get_line_count content⟩]

/-- Model of the `for item in path.iterdir()` loop of `scan_path` over
the children of one directory. -/
def scanList (cfg : ScanConfig) (parent : String) : List FSEntry → List ScanFile
  | [] => []
  | item :: rest => scanEntry cfg parent item ++ scanList cfg parent rest

end

/-- Model of `scan_directory`: a non-directory root raises ValueError;
otherwise the recursive walk runs, and a permission failure on the root
directory itself yields an empty result rather than an error. -/
def scan_directory (cfg : ScanConfig) (rootPath : String) (root : FSEntry) :
    Except String (List ScanFile) :=
  match root with
  | .file _ _ _ _ _ _ => .error ("Path is not a directory: " ++ rootPath)
  | .dir _ _ permOk entries =>
      .ok (if permOk then scanList cfg rootPath entries else [])

/-! ## Full-text search (`backend/app/services/fts.py`)

FTS5 tokenization is abstracted: each indexed column is modelled as its
token sequence, and the quoted query string as one token phrase (the
source wraps the query in double quotes, so it is matched as a single
phrase and cannot inject FTS5 syntax).  The porter stemmer rewrites
query and column tokens alike, so token equality stands for
stemmed-token equality. -/

structure FtsRow where
  scriptId : Nat
  name : List String
  path : List String
  content : List String
  notes : List String
  deriving Repr, DecidableEq

/-- Table-level FTS5 MATCH of a phrase: the phrase may occur in any
column of the row (this is what `WHERE scripts_fts MATCH ?` evaluates,
with no column filter). -/
def ftsRowMatch (r : FtsRow) (phrase : List String) : Bool :=
  decide (phrase <:+: r.name) || decide (phrase <:+: r.path) ||
  decide (phrase <:+: r.content) || decide (phrase <:+: r.notes)

/-- Result page of `search_fts`. -/
structure SearchPage where
  items : List Nat
  total : Nat
  page : Nat
  pageSize : Nat
  totalPages : Nat
  deriving Repr, DecidableEq

/-- Model of `search_fts`: the source computes `search_cols` from the
two flags but never applies it, so both the COUNT query and the result
query run a table-level MATCH over all four columns; results join the
`scripts` table, group by script id and paginate.  The bm25 rank
ordering is abstracted (no claim depends on the order). -/
def search_fts (ftsRows : List FtsRow) (scripts : List Script) (phrase : List String)
    (searchContent searchNotes : Bool) (page pageSize : Nat) : SearchPage :=
  let searchCols : List String :=
    ["name", "path"] ++ (if searchContent then ["content"] else []) ++
      (if searchNotes then ["notes"] else [])
  let matching := ftsRows.filter (fun r => ftsRowMatch r phrase)
  let total := ((matching.map (fun r => r.scriptId)).dedup).length
  let joined := matching.filter (fun r => scripts.any (fun s => s.id = r.scriptId))
  let grouped := (joined.map (fun r => r.scriptId)).dedup
  let items := (grouped.drop ((page - 1) * pageSize)).take pageSize
  let _ := searchCols
  ⟨items, total, page, pageSize, (total + pageSize - 1) / pageSize⟩

/-! ## difflib.SequenceMatcher model

`calculate_similarity` constructs `difflib.SequenceMatcher(None, text1,
text2)` and returns `ratio()`.  The model below follows the CPython
implementation specialized to `isjunk=None` (so the junk set is empty
and the two junk-extension loops of `find_longest_match` are no-ops,
which the model omits) with the default `autojunk=True`.  Scores are
exact rationals; the Python float `2.0 * matches / length` is the
rounding of the same rational and all claim comparisons are preserved. -/

/-- Appends an index to the entry of a character in the b2j map,
creating the entry at the end on first occurrence (dict insertion
order). -/
def assocAppend (m : List (Char × List Int)) (c : Char) (i : Int) : List (Char × List Int) :=
  match m with
  | [] => [(c, [i])]
  | (k, v) :: rest => if k = c then (k, v ++ [i]) :: rest else (k, v) :: assocAppend rest c i

/-- Index lists of the b2j map, empty for absent characters
(`b2j.get(x, nothing)`). -/
def b2jGet (m : List (Char × List Int)) (c : Char) : List Int :=
  match m.find? (fun kv => kv.1 = c) with
  | some kv => kv.2
  | none => []

/-- Model of `SequenceMatcher.__chain_b` with `isjunk=None`: the
position map of the second sequence, with the autojunk purge of popular
characters when the second sequence has at least 200 elements. -/
def chainB (b : List Char) : List (Char × List Int) :=
  let raw := b.enum.foldl (fun m p => assocAppend m p.2 (p.1 : Int)) []
  let n := b.length
  if 200 ≤ n then
    let ntest := n / 100 + 1
    raw.filter (fun kv => ¬((ntest : Int) < (kv.2.length : Int)))
  else raw

/-- Lookup in the j2len dict with default 0. -/
def j2lenGet (m : List (Int × Int)) (j : Int) : Int :=
  match m.find? (fun p => p.1 = j) with
  | some p => p.2
  | none => 0

/-- Inner loop of `find_longest_match` over the position list of
`a[i]`: positions below `blo` are skipped, the ascending list is cut at
`bhi` (the `break`), each position records the run length
`j2len.get(j-1, 0) + 1` into the new dict, and a strictly larger run
becomes the best match. -/
def flmInner (blo bhi i : Int) (prev : List (Int × Int)) :
    List Int → List (Int × Int) → Int × Int × Int → List (Int × Int) × (Int × Int × Int)
  | [], acc, best => (acc, best)
  | j :: js, acc, best =>
      if j < blo then flmInner blo bhi i prev js acc best
      else if bhi ≤ j then (acc, best)
      else
        let k := j2lenGet prev (j - 1) + 1
        let acc2 := (j, k) :: acc
        let best2 := if best.2.2 < k then (i - k + 1, j - k + 1, k) else best
        flmInner blo bhi i prev js acc2 best2

/-- Outer loop of `find_longest_match` over `range(alo, ahi)`, with the
iteration count as explicit fuel. -/
def flmOuter (a : Array Char) (b2j : List (Char × List Int)) (blo bhi : Int) :
    Int → Nat → List (Int × Int) → Int × Int × Int → Int × Int × Int
  | _, 0, _, best => best
  | i, cnt + 1, j2len, best =>
      let js := b2jGet b2j (a.getD i.toNat ' ')
      let r := flmInner blo bhi i j2len js [] best
      flmOuter a b2j blo bhi (i + 1) cnt r.1 r.2

/-- Backward extension loop of `find_longest_match` (with an empty junk
set every element is non-junk); the fuel is the loop bound
`besti - alo`. -/
def flmExtendLo (a b : Array Char) (alo blo : Int) :
    Nat → Int → Int → Int → Int × Int × Int
  | 0, besti, bestj, k => (besti, bestj, k)
  | fuel + 1, besti, bestj, k =>
      if alo < besti ∧ blo < bestj ∧
         a.getD (besti - 1).toNat ' ' = b.getD (bestj - 1).toNat ' ' then
        flmExtendLo a b alo blo fuel (besti - 1) (bestj - 1) (k + 1)
      else (besti, bestj, k)

/-- Forward extension loop of `find_longest_match`; the fuel is the
loop bound `ahi - (besti + bestsize)`. -/
def flmExtendHi (a b : Array Char) (ahi bhi : Int) :
    Nat → Int → Int → Int → Int × Int × Int
  | 0, besti, bestj, k => (besti, bestj, k)
  | fuel + 1, besti, bestj, k =>
      if besti + k < ahi ∧ bestj + k < bhi ∧
         a.getD (besti + k).toNat ' ' = b.getD (bestj + k).toNat ' ' then
        flmExtendHi a b ahi bhi fuel besti bestj (k + 1)
      else (besti, bestj, k)

/-- Model of `SequenceMatcher.find_longest_match` with `isjunk=None`:
the dynamic-programming sweep followed by the two non-junk extension
loops (the junk extension loops are no-ops for an empty junk set). -/
def find_longest_match (a b : Array Char) (b2j : List (Char × List Int))
    (alo ahi blo bhi : Int) : Int × Int × Int :=
  let bestD := flmOuter a b2j blo bhi alo (ahi - alo).toNat [] (alo, blo, 0)
  let e1 := flmExtendLo a b alo blo (bestD.1 - alo).toNat bestD.1 bestD.2.1 bestD.2.2
  flmExtendHi a b ahi bhi (ahi - (e1.1 + e1.2.2)).toNat e1.1 e1.2.1 e1.2.2

/-- Invariant of a j2len dict before iteration `iB`: values are
non-negative run lengths bounded by the iteration count and by the
b-side window position. -/
def JInv (alo blo bhi iB : Int) (m : List (Int × Int)) : Prop :=
  ∀ p ∈ m, 0 ≤ p.2 ∧ p.2 + alo ≤ iB ∧ blo ≤ p.1 ∧ p.1 < bhi ∧ p.2 ≤ p.1 - blo + 1

/-- Invariant of the running best match: the size is non-negative, a
zero-size best is still the initial `(alo, blo, 0)`, and a non-trivial
best lies inside the window (a-end bounded by `iB`). -/
def BInv (alo blo bhi iB : Int) (best : Int × Int × Int) : Prop :=
  0 ≤ best.2.2 ∧
  (best.2.2 = 0 → best.1 = alo ∧ best.2.1 = blo) ∧
  (best.2.2 ≠ 0 → alo ≤ best.1 ∧ blo ≤ best.2.1 ∧
    best.1 + best.2.2 ≤ iB ∧ best.2.1 + best.2.2 ≤ bhi)

theorem BInv.mono {alo blo bhi iB iB' : Int} {best : Int × Int × Int}
    (h : BInv alo blo bhi iB best) (hle : iB ≤ iB') : BInv alo blo bhi iB' best := by
  obtain ⟨h1, h2, h3⟩ := h
  exact ⟨h1, h2, fun hk => by
    obtain ⟨a1, a2, a3, a4⟩ := h3 hk
    exact ⟨a1, a2, le_trans a3 hle, a4⟩⟩

theorem j2lenGet_cases (m : List (Int × Int)) (j : Int) :
    j2lenGet m j = 0 ∨ (j, j2lenGet m j) ∈ m := by
  unfold j2lenGet
  cases hfind : m.find? (fun p => p.1 = j) with
  | none => exact Or.inl rfl
  | some p =>
      right
      have hmem := List.mem_of_find?_eq_some hfind
      have hp := List.find?_some hfind
      have : p.1 = j := by simpa using hp
      simpa [← this] using hmem

theorem flmInner_inv (alo blo bhi i : Int) (prev : List (Int × Int)) (hi : alo ≤ i)
    (hprev : JInv alo blo bhi i prev) :
    ∀ (js : List Int) (acc : List (Int × Int)) (best : Int × Int × Int),
      JInv alo blo bhi (i + 1) acc → BInv alo blo bhi (i + 1) best →
      JInv alo blo bhi (i + 1) (flmInner blo bhi i prev js acc best).1 ∧
      BInv alo blo bhi (i + 1) (flmInner blo bhi i prev js acc best).2 := by
  intro js
  induction js with
  | nil => intro acc best hacc hbest; exact ⟨hacc, hbest⟩
  | cons j js ih =>
      intro acc best hacc hbest
      by_cases hjlo : j < blo
      · rw [flmInner, if_pos hjlo]
        exact ih acc best hacc hbest
      · by_cases hjhi : bhi ≤ j
        · rw [flmInner, if_neg hjlo, if_pos hjhi]
          exact ⟨hacc, hbest⟩
        · rw [flmInner, if_neg hjlo, if_neg hjhi]
          have hget : 0 ≤ j2lenGet prev (j - 1) ∧ j2lenGet prev (j - 1) + alo ≤ i ∧
              j2lenGet prev (j - 1) ≤ (j - 1) - blo + 1 := by
            rcases j2lenGet_cases prev (j - 1) with h0 | hmem
            · refine ⟨by omega, by omega, ?_⟩
              omega
            · have := hprev _ hmem
              simp only at this
              exact ⟨this.1, this.2.1, this.2.2.2.2⟩
          refine ih _ _ ?_ ?_
          · intro p hp
            rcases List.mem_cons.mp hp with hp1 | hp2
            · subst hp1
              refine ⟨by omega, by omega, by omega, by omega, by omega⟩
            · exact hacc p hp2
          · by_cases hupd : best.2.2 < j2lenGet prev (j - 1) + 1
            · rw [if_pos hupd]
              refine ⟨?_, ?_, ?_⟩ <;> dsimp only
              · omega
              · intro h0; omega
              · intro _
                refine ⟨?_, ?_, ?_, ?_⟩ <;> omega
            · rw [if_neg hupd]
              exact hbest

theorem flmOuter_inv (a : Array Char) (b2j : List (Char × List Int)) (alo blo bhi ahi : Int) :
    ∀ (cnt : Nat) (i : Int) (j2len : List (Int × Int)) (best : Int × Int × Int),
      alo ≤ i → i + (cnt : Int) ≤ ahi →
      JInv alo blo bhi i j2len → BInv alo blo bhi i best →
      BInv alo blo bhi ahi (flmOuter a b2j blo bhi i cnt j2len best) := by
  intro cnt
  induction cnt with
  | zero =>
      intro i j2len best hi hcnt hj hb
      rw [flmOuter]
      exact hb.mono (by omega)
  | succ n ih =>
      intro i j2len best hi hcnt hj hb
      rw [flmOuter]
      have inner := flmInner_inv alo blo bhi i j2len hi hj
        (b2jGet b2j (a.getD i.toNat ' ')) [] best
        (by intro p hp; simp at hp) (hb.mono (by omega))
      exact ih (i + 1) _ _ (by omega) (by push_cast at hcnt; omega)
        inner.1 inner.2

theorem flmExtendLo_inv (a b : Array Char) (alo blo bhi iB : Int) :
    ∀ (fuel : Nat) (besti bestj k : Int),
      BInv alo blo bhi iB (besti, bestj, k) →
      BInv alo blo bhi iB (flmExtendLo a b alo blo fuel besti bestj k) := by
  intro fuel
  induction fuel with
  | zero => intro besti bestj k h; rw [flmExtendLo]; exact h
  | succ n ih =>
      intro besti bestj k h
      rw [flmExtendLo]
      split
      · rename_i hcond
        obtain ⟨hc1, hc2, _⟩ := hcond
        obtain ⟨b1, b2, b3⟩ := h
        dsimp only at b1 b2 b3
        refine ih _ _ _ ⟨?_, ?_, ?_⟩ <;> dsimp only
        · omega
        · intro h0; omega
        · intro _
          by_cases hk : k = 0
          · obtain ⟨e1, e2⟩ := b2 hk
            refine ⟨?_, ?_, ?_, ?_⟩ <;> omega
          · obtain ⟨a1, a2, a3, a4⟩ := b3 hk
            refine ⟨?_, ?_, ?_, ?_⟩ <;> omega
      · exact h

theorem flmExtendHi_inv (a b : Array Char) (alo blo ahi bhi : Int) :
    ∀ (fuel : Nat) (besti bestj k : Int),
      BInv alo blo bhi ahi (besti, bestj, k) →
      BInv alo blo bhi ahi (flmExtendHi a b ahi bhi fuel besti bestj k) := by
  intro fuel
  induction fuel with
  | zero => intro besti bestj k h; rw [flmExtendHi]; exact h
  | succ n ih =>
      intro besti bestj k h
      rw [flmExtendHi]
      split
      · rename_i hcond
        obtain ⟨hc1, hc2, _⟩ := hcond
        obtain ⟨b1, b2, b3⟩ := h
        dsimp only at b1 b2 b3
        refine ih _ _ _ ⟨?_, ?_, ?_⟩ <;> dsimp only
        · omega
        · intro h0; omega
        · intro _
          by_cases hk : k = 0
          · obtain ⟨e1, e2⟩ := b2 hk
            refine ⟨?_, ?_, ?_, ?_⟩ <;> omega
          · obtain ⟨a1, a2, a3, a4⟩ := b3 hk
            refine ⟨?_, ?_, ?_, ?_⟩ <;> omega
      · exact h

/-- Window bounds of `find_longest_match`: the size is non-negative and
a non-trivial match lies inside the requested windows.  This is what a
caller may rely on when recursing on the flanks. -/
theorem flm_bounds (a b : Array Char) (b2j : List (Char × List Int)) (alo ahi blo bhi : Int) :
    BInv alo blo bhi ahi (find_longest_match a b b2j alo ahi blo bhi) := by
  unfold find_longest_match
  have houter : BInv alo blo bhi ahi (flmOuter a b2j blo bhi alo (ahi - alo).toNat [] (alo, blo, 0)) := by
    by_cases hrange : alo ≤ ahi
    · exact flmOuter_inv a b2j alo blo bhi ahi (ahi - alo).toNat alo [] (alo, blo, 0)
        le_rfl (by omega) (by intro p hp; simp at hp)
        ⟨le_rfl, fun _ => ⟨rfl, rfl⟩, fun hk => absurd rfl hk⟩
    · have : (ahi - alo).toNat = 0 := by omega
      rw [this, flmOuter]
      exact ⟨le_rfl, fun _ => ⟨rfl, rfl⟩, fun hk => absurd rfl hk⟩
  have hlo := flmExtendLo_inv a b alo blo bhi ahi (((flmOuter a b2j blo bhi alo (ahi - alo).toNat [] (alo, blo, 0)).1 - alo).toNat)
    (flmOuter a b2j blo bhi alo (ahi - alo).toNat [] (alo, blo, 0)).1
    (flmOuter a b2j blo bhi alo (ahi - alo).toNat [] (alo, blo, 0)).2.1
    (flmOuter a b2j blo bhi alo (ahi - alo).toNat [] (alo, blo, 0)).2.2 houter
  exact flmExtendHi_inv a b alo blo ahi bhi _ _ _ _ hlo

/-- Unprocessed a-side length of a queued window. -/
def rangeSize (r : Int × Int × Int × Int) : Nat := (r.2.1 - r.1).toNat

/-- Total unprocessed a-side length of the queue, the primary
termination measure of the block recursion. -/
def queueMeasure (q : List (Int × Int × Int × Int)) : Nat := (q.map rangeSize).sum

/-- Windows pushed back onto the queue after a non-empty match: the
right flank on top of the left flank, matching the pop order of the
Python list. -/
def pushFlanks (m : Int × Int × Int) (alo ahi blo bhi : Int)
    (rest : List (Int × Int × Int × Int)) : List (Int × Int × Int × Int) :=
  (if m.1 + m.2.2 < ahi ∧ m.2.1 + m.2.2 < bhi then
    [(m.1 + m.2.2, ahi, m.2.1 + m.2.2, bhi)] else []) ++
  (if alo < m.1 ∧ blo < m.2.1 then [(alo, m.1, blo, m.2.1)] else []) ++ rest

/-- A non-empty match strictly shrinks the total unprocessed a-side
length: the two flanks cover the popped window minus the match. -/
theorem pushFlanks_measure_lt (m : Int × Int × Int) (alo ahi blo bhi : Int)
    (rest : List (Int × Int × Int × Int))
    (hm : BInv alo blo bhi ahi m) (hk : m.2.2 ≠ 0) :
    queueMeasure (pushFlanks m alo ahi blo bhi rest) <
      queueMeasure ((alo, ahi, blo, bhi) :: rest) := by
  obtain ⟨b1, _, b3⟩ := hm
  obtain ⟨c1, c2, c3, c4⟩ := b3 hk
  simp only [pushFlanks, queueMeasure, List.map_append, List.sum_append,
    List.map_cons, List.sum_cons, rangeSize]
  split <;> split <;>
    simp only [List.map_cons, List.sum_cons, List.map_nil, List.sum_nil, rangeSize] <;>
    omega

/-- Model of the `while queue:` loop of
`SequenceMatcher.get_matching_blocks`: pop a window, find its longest
match, record it when non-empty and push the flanking windows.  The
Python list used LIFO is modelled as a head stack.  The recursion is
driven by an explicit fuel that strictly dominates the loop's
well-founded measure (`matchingLoop_fuel_sufficient` below), so the
fuel-exhausted branch is unreachable and the function equals the
unbounded loop of the source. -/
def matchingLoop (a b : Array Char) (b2j : List (Char × List Int)) :
    Nat → List (Int × Int × Int × Int) → List (Int × Int × Int) → List (Int × Int × Int)
  | _, [], acc => acc
  | 0, _ :: _, acc => acc
  | fuel + 1, (alo, ahi, blo, bhi) :: rest, acc =>
      if (find_longest_match a b b2j alo ahi blo bhi).2.2 ≠ 0 then
        matchingLoop a b b2j fuel
          (pushFlanks (find_longest_match a b b2j alo ahi blo bhi) alo ahi blo bhi rest)
          (acc ++ [find_longest_match a b b2j alo ahi blo bhi])
      else matchingLoop a b b2j fuel rest acc

/-- Fuel that dominates the loop measure of `matchingLoop`. -/
def loopFuel (q : List (Int × Int × Int × Int)) : Nat :=
  2 * queueMeasure q + q.length

/-- The flank push grows the queue length by at most two while
shrinking the measure, so `loopFuel` strictly decreases across a
non-empty-match step. -/
theorem pushFlanks_loopFuel_lt (m : Int × Int × Int) (alo ahi blo bhi : Int)
    (rest : List (Int × Int × Int × Int))
    (hm : BInv alo blo bhi ahi m) (hk : m.2.2 ≠ 0) :
    loopFuel (pushFlanks m alo ahi blo bhi rest) <
      loopFuel ((alo, ahi, blo, bhi) :: rest) := by
  have hlt := pushFlanks_measure_lt m alo ahi blo bhi rest hm hk
  have hlen : (pushFlanks m alo ahi blo bhi rest).length ≤ rest.length + 2 := by
    simp only [pushFlanks, List.length_append]
    split <;> split <;> simp <;> omega
  simp only [loopFuel, List.length_cons] at *
  omega

/-- Any fuel at least `loopFuel q` computes the same block list: the
loop has reached its fixed point, so the fuelled definition agrees with
the unbounded while loop of the source. -/
theorem matchingLoop_fuel_sufficient (a b : Array Char) (b2j : List (Char × List Int)) :
    ∀ (fuel : Nat) (q : List (Int × Int × Int × Int)) (acc : List (Int × Int × Int)),
      loopFuel q ≤ fuel →
      matchingLoop a b b2j fuel q acc = matchingLoop a b b2j (loopFuel q) q acc := by
  intro fuel
  induction fuel using Nat.strong_induction_on with
  | _ fuel ih =>
      intro q acc hq
      match fuel, q with
      | fuel, [] =>
          cases hf : loopFuel ([] : List (Int × Int × Int × Int)) <;> rw [matchingLoop] <;>
            cases fuel <;> rw [matchingLoop]
      | 0, (alo, ahi, blo, bhi) :: rest =>
          have : loopFuel ((alo, ahi, blo, bhi) :: rest) ≠ 0 := by
            simp [loopFuel]
          omega
      | fuel + 1, (alo, ahi, blo, bhi) :: rest =>
          have hpos : 0 < loopFuel ((alo, ahi, blo, bhi) :: rest) := by
            simp [loopFuel]
          obtain ⟨lf, hlf⟩ : ∃ lf, loopFuel ((alo, ahi, blo, bhi) :: rest) = lf + 1 :=
            ⟨loopFuel ((alo, ahi, blo, bhi) :: rest) - 1, by omega⟩
          rw [hlf, matchingLoop, matchingLoop]
          by_cases hk : (find_longest_match a b b2j alo ahi blo bhi).2.2 ≠ 0
          · rw [if_pos hk, if_pos hk]
            have hstep := pushFlanks_loopFuel_lt (find_longest_match a b b2j alo ahi blo bhi)
              alo ahi blo bhi rest (flm_bounds a b b2j alo ahi blo bhi) hk
            rw [ih fuel (by omega) _ _ (by omega),
                ih lf (by omega) _ _ (by omega)]
          · rw [if_neg hk, if_neg hk]
            have hrest : loopFuel rest < loopFuel ((alo, ahi, blo, bhi) :: rest) := by
              simp only [loopFuel, queueMeasure, List.map_cons, List.sum_cons, List.length_cons]
              omega
            rw [ih fuel (by omega) _ _ (by omega),
                ih lf (by omega) _ _ (by omega)]

/-- Lexicographic order on match triples, as in the Python tuple sort
of `matching_blocks.sort()`. -/
def tripleLe (x y : Int × Int × Int) : Prop :=
  x.1 < y.1 ∨ (x.1 = y.1 ∧ (x.2.1 < y.2.1 ∨ (x.2.1 = y.2.1 ∧ x.2.2 ≤ y.2.2)))

instance tripleLe.dec : DecidableRel tripleLe := fun x y => by
  unfold tripleLe
  infer_instance

/-- Model of the adjacent-block merge at the end of
`get_matching_blocks`, starting from `i1 = j1 = k1 = 0`. -/
def mergeAdjacent : Int × Int × Int → List (Int × Int × Int) → List (Int × Int × Int)
  | (i1, j1, k1), [] => if k1 ≠ 0 then [(i1, j1, k1)] else []
  | (i1, j1, k1), (i2, j2, k2) :: rest =>
      if i1 + k1 = i2 ∧ j1 + k1 = j2 then mergeAdjacent (i1, j1, k1 + k2) rest
      else (if k1 ≠ 0 then [(i1, j1, k1)] else []) ++ mergeAdjacent (i2, j2, k2) rest

/-- Model of `SequenceMatcher.get_matching_blocks`: the recursive block
collection, sorted, with adjacent blocks merged and the zero-length
sentinel appended. -/
def get_matching_blocks (a b : Array Char) (b2j : List (Char × List Int)) :
    List (Int × Int × Int) :=
  let q0 : List (Int × Int × Int × Int) := [(0, (a.size : Int), 0, (b.size : Int))]
  let raw := matchingLoop a b b2j (loopFuel q0) q0 []
  mergeAdjacent (0, 0, 0) (List.insertionSort tripleLe raw) ++
    [((a.size : Int), (b.size : Int), 0)]

/-- Total matched size over a block list. -/
def sumMatchSizes (bs : List (Int × Int × Int)) : Int :=
  (bs.map (fun t => t.2.2)).sum

/-- Model of `difflib._calculate_ratio` with the exact rational
`2 * matched / length` in place of the Python float. -/
def _calculate_ratio (nMatched len2 : Int) : Rat :=
  if len2 ≠ 0 then mkRat (2 * nMatched) len2.toNat else 1

/-- Model of `calculate_similarity` from
`backend/app/services/similarity.py`:
`difflib.SequenceMatcher(None, text1, text2).ratio()`. -/
def calculate_similarity (text1 text2 : String) : Rat :=
  let a := text1.data.toArray
  let b := text2.data.toArray
  _calculate_ratio (sumMatchSizes (get_matching_blocks a b (chainB text2.data)))
    ((a.size : Int) + (b.size : Int))

/-! ## Similarity service (`backend/app/services/similarity.py`) -/

/-- Model of `str.startswith` at the character level. -/
def pyStartsWith (s pre : String) : Bool :=
  pre.data.isPrefixOf s.data

/-- Model of `normalize_content`: split on newlines, strip each line,
drop empty lines and lines starting with a comment marker, lowercase
the rest, and rejoin with newlines. -/
def normalize_content (content : String) : String :=
  let kept := (pySplit '\n' content).filterMap (fun line =>
    let l := pyStrip line
    if l = "" || pyStartsWith l "#" || pyStartsWith l "//" || pyStartsWith l "/*" then none
    else some (pyLower l))
  String.mk (joinSep '\n' (kept.map String.data))

/-- Round-half-even of a rational to an integer, as in the Python
`round` builtin (the binary-float representation detail of `round(x, n)`
is abstracted to exact-rational rounding). -/
def bankersRound (q : Rat) : Int :=
  let f := ⌊q⌋
  let twice := 2 * (q - (f : Rat))
  if twice < 1 then f
  else if 1 < twice then f + 1
  else if f % 2 = 0 then f else f + 1

/-- Model of `round(x, ndigits)` on an exact rational. -/
def pyRound (q : Rat) (ndigits : Nat) : Rat :=
  (bankersRound (q * (10 ^ ndigits : Nat)) : Rat) / ((10 ^ ndigits : Nat) : Rat)

/-- One entry of the list returned by `find_similar_scripts`. -/
structure SimResult where
  id : Nat
  path : String
  name : String
  size : Nat
  similarity_score : Rat
  similarity_percent : Rat
  deriving Repr, DecidableEq

/-- Database-plus-filesystem state visible to the similarity service:
the `scripts` table and the readable file contents (`none` when opening
or reading the path raises). -/
structure SimDB where
  scripts : List Script
  fileContent : String → Option String

/-- Candidate loop of `find_similar_scripts`.  For each candidate the
source first evaluates `candidate_hash and candidate_hash ==
target.get('hash')`; when `candidate_hash` is truthy (non-empty,
non-null) it then calls `.get` on the target row, which is an
`aiosqlite.Row` (`sqlite3.Row` has no attribute `get`, and `hash` is
not even in the target SELECT list), so an `AttributeError` propagates
out of the coroutine.  When `candidate_hash` is falsy the comparison
short-circuits and the candidate is scored. -/
def simLoop (db : SimDB) (normalizedTarget : String) (threshold : Rat) :
    List Script → Except String (List SimResult)
  | [] => .ok []
  | c :: rest =>
      if c.hash ≠ "" then
        .error "AttributeError: sqlite3.Row object has no attribute get"
      else
        match db.fileContent c.path with
        | none => simLoop db normalizedTarget threshold rest
        | some content =>
            let sim := calculate_similarity normalizedTarget (normalize_content content)
            match simLoop db normalizedTarget threshold rest with
            | .error e => .error e
            | .ok tail =>
                if threshold ≤ sim then
                  .ok (⟨c.id, c.path, c.name, c.size, pyRound sim 4, pyRound (sim * 100) 2⟩ :: tail)
                else .ok tail

/-- Model of `find_similar_scripts`: look up the target row, read and
normalize its content (failures return an empty list), select candidate
rows of the same language (an SQL `language = NULL` comparison matches
nothing) with size in `[size*0.5, size*2]`, ordered by absolute size
distance and capped at 50, then run the scoring loop and return the
top `limit` by descending score.  The sqlite ORDER BY tie order is
modelled as stable. -/
def find_similar_scripts (db : SimDB) (script_id : Nat) (threshold : Rat) (limit : Nat) :
    Except String (List SimResult) :=
  match db.scripts.find? (fun r => r.id = script_id) with
  | none => .ok []
  | some target =>
      match db.fileContent target.path with
      | none => .ok []
      | some targetContent =>
          let normalizedTarget := normalize_content targetContent
          let sizeMin := if target.size ≠ 0 then target.size / 2 else 0
          let sizeMax := if target.size ≠ 0 then target.size * 2 else 999999999
          let candidates :=
            match target.language with
            | none => []
            | some lang =>
                db.scripts.filter (fun (r : Script) =>
                  r.id ≠ script_id ∧ r.missing = false ∧ r.language = some lang ∧
                  sizeMin ≤ r.size ∧ r.size ≤ sizeMax)
          let ordered := (List.insertionSort (fun x y =>
            ((x.size : Int) - target.size).natAbs ≤ ((y.size : Int) - target.size).natAbs)
            candidates).take 50
          match simLoop db normalizedTarget threshold ordered with
          | .error e => .error e
          | .ok found =>
              .ok ((List.insertionSort (fun x y => y.similarity_score ≤ x.similarity_score)
                found).take limit)

deriving instance DecidableEq for Except

/-! ## Concrete end-to-end scenario (spec section 8)

A root `/r` with `a.py` (one hundred times x), `b.py` (identical) and
`c.py` (one hundred times y); all files stat and read fine. -/

/-- Scan-time mtime of the scenario files. -/
def scenarioMtime : PyDateTime := ⟨2024, 5, 6, 7, 8, 9, 123456, none⟩

/-- Content of `a.py` and `b.py`. -/
def xs100 : String := String.mk (List.replicate 100 'x')

/-- Content of `c.py`. -/
def ys100 : String := String.mk (List.replicate 100 'y')

/-- The scenario root directory. -/
def scenarioTree : FSEntry := .dir "r" false true
  [.file "a.py" false true 100 scenarioMtime (some xs100),
   .file "b.py" false true 100 scenarioMtime (some xs100),
   .file "c.py" false true 100 scenarioMtime (some ys100)]

/-- Default scan configuration of a fresh FolderRoot row. -/
def scenarioCfg : ScanConfig := ⟨true, none, none, false, 10485760⟩

/-- Scan result of the scenario root. -/
def scenarioScan : List ScanFile := (scan_directory scenarioCfg "/r" scenarioTree).toOption.getD []

/-- Catalog after reconciling the scenario scan into an empty table. -/
def scenarioAfterScan : ScriptsTable × ScanCounts := performScan 1 scenarioScan ⟨[], 1⟩

/-- Similarity-service view of the scenario state. -/
def scenarioSimDB : SimDB :=
  ⟨scenarioAfterScan.1.rows, fun p =>
    if p = "/r/a.py" then some xs100
    else if p = "/r/b.py" then some xs100
    else if p = "/r/c.py" then some ys100
    else none⟩

/-! ## Helper lemmas -/

theorem splitSep_no_sep (sep : Char) (x : List Char) (hx : sep ∉ x) :
    splitSep sep x = [x] := by
  induction x with
  | nil => rfl
  | cons c cs ih =>
      have hc : c ≠ sep := fun h => hx (h ▸ List.mem_cons_self c cs)
      have hcs : sep ∉ cs := fun h => hx (List.mem_cons_of_mem c h)
      rw [splitSep, ih hcs]
      simp [hc]

theorem splitSep_ne_nil (sep : Char) (t : List Char) : splitSep sep t ≠ [] := by
  induction t with
  | nil => simp [splitSep]
  | cons c cs ih =>
      rw [splitSep]
      rcases h : splitSep sep cs with _ | ⟨g, gs⟩
      · exact absurd h ih
      · by_cases hc : c = sep <;> simp [hc]

theorem splitSep_append_sep (sep : Char) (x t : List Char) (hx : sep ∉ x) :
    splitSep sep (x ++ sep :: t) = x :: splitSep sep t := by
  induction x with
  | nil =>
      rw [List.nil_append, splitSep]
      rcases h : splitSep sep t with _ | ⟨g, gs⟩
      · exact absurd h (splitSep_ne_nil sep t)
      · simp
  | cons c cs ih =>
      have hc : c ≠ sep := fun h => hx (h ▸ List.mem_cons_self c cs)
      have hcs : sep ∉ cs := fun h => hx (List.mem_cons_of_mem c h)
      rw [List.cons_append, splitSep, ih hcs]
      simp [hc]

theorem splitSep_joinSep (sep : Char) (l : List (List Char)) (hne : l ≠ [])
    (hfree : ∀ x ∈ l, sep ∉ x) : splitSep sep (joinSep sep l) = l := by
  induction l with
  | nil => exact absurd rfl hne
  | cons x xs ih =>
      cases xs with
      | nil =>
          rw [joinSep]
          exact splitSep_no_sep sep x (hfree x (List.mem_cons_self x []))
      | cons y ys =>
          rw [joinSep, splitSep_append_sep sep x (joinSep sep (y :: ys))
            (hfree x (List.mem_cons_self x (y :: ys)))]
          rw [ih (by simp) (fun z hz => hfree z (List.mem_cons_of_mem x hz))]

theorem pySplit_groupConcat (items : List String) (hne : items ≠ [])
    (hfree : ∀ s ∈ items, '|' ∉ s.data) :
    pySplit '|' (sqlGroupConcat '|' items) = items := by
  unfold pySplit sqlGroupConcat
  rw [show (String.mk (joinSep '|' (items.map String.data))).data
        = joinSep '|' (items.map String.data) from rfl]
  rw [splitSep_joinSep '|' (items.map String.data) (by simpa using hne)
    (by intro x hx
        obtain ⟨s, hs, rfl⟩ := List.mem_map.mp hx
        exact hfree s hs)]
  rw [List.map_map]
  exact List.map_id items

/-! ## Claim theorems -/

/-- C8: processing a watch delete event for a path flags exactly the
rows with that path as missing and changes nothing else: no row is
removed, every other field of every row is unchanged, and rows with a
different path are untouched. -/
theorem watch_delete_marks_missing_only (tbl : ScriptsTable) (p : String) :
    (_mark_file_missing tbl p).nextId = tbl.nextId ∧
    (_mark_file_missing tbl p).rows.length = tbl.rows.length ∧
    ∀ i : Nat, ∀ r r' : Script, tbl.rows[i]? = some r →
      (_mark_file_missing tbl p).rows[i]? = some r' →
      r'.id = r.id ∧ r'.rootId = r.rootId ∧ r'.path = r.path ∧ r'.name = r.name ∧
      r'.extension = r.extension ∧ r'.language = r.language ∧ r'.size = r.size ∧
      r'.mtime = r.mtime ∧ r'.hash = r.hash ∧ r'.lineCount = r.lineCount ∧
      r'.missing = (if r.path = p then true else r.missing) := by
  refine ⟨rfl, by simp [_mark_file_missing], ?_⟩
  intro i r r' hr hr'
  rw [_mark_file_missing] at hr'
  simp only [List.getElem?_map, hr] at hr'
  by_cases hp : r.path = p
  · simp only [hp, if_true, Option.map_some', Option.some.injEq] at hr'
    subst hr'
    simp [hp]
  · simp only [hp, if_false, Option.map_some', Option.some.injEq, if_neg hp] at hr'
    subst hr'
    simp [hp]

/-- Concrete table for the C8 witness. -/
def witnessRow : Script :=
  ⟨1, 1, "/r/a.py", "a.py", ".py", some "Python", 100, "2024-05-06 07:08:09", "h1", 5, false⟩

/-- Witness for C8 at a one-row table. -/
theorem watch_delete_marks_missing_only_witness :
    (⟨[witnessRow], 2⟩ : ScriptsTable).rows[0]? = some witnessRow ∧
    (_mark_file_missing ⟨[witnessRow], 2⟩ "/r/a.py").rows[0]? =
      some { witnessRow with missing := true } ∧
    ({ witnessRow with missing := true } : Script).missing =
      (if witnessRow.path = "/r/a.py" then true else witnessRow.missing) :=
  ⟨rfl, rfl,
    ((watch_delete_marks_missing_only ⟨[witnessRow], 2⟩ "/r/a.py").2.2 0 witnessRow
      { witnessRow with missing := true } rfl rfl).2.2.2.2.2.2.2.2.2.2⟩

/-- Modify-event metadata for the C9 failing input. -/
def modifyMeta : ScanFile :=
  ⟨"/r/a.py", "a.py", ".py", some "Python", 120, ⟨2024, 5, 6, 8, 0, 0, 0, none⟩, "h2", 6⟩

/-- C9: the catalog mutations of a modify event and of a delete event
for the same path do not commute, and the swapped order (which the
per-event daemon threads of `_schedule_file_update` /
`_schedule_file_deletion` permit, since no ordering is imposed) leaves
the entry non-missing although the delete was delivered last. -/
theorem watch_event_order_dependent :
    _mark_file_missing (watchUpsert 1 modifyMeta ⟨[witnessRow], 2⟩) "/r/a.py" ≠
      watchUpsert 1 modifyMeta (_mark_file_missing ⟨[witnessRow], 2⟩ "/r/a.py") ∧
    (_mark_file_missing (watchUpsert 1 modifyMeta ⟨[witnessRow], 2⟩) "/r/a.py").rows.map
      (fun r => r.missing) = [true] ∧
    (watchUpsert 1 modifyMeta (_mark_file_missing ⟨[witnessRow], 2⟩ "/r/a.py")).rows.map
      (fun r => r.missing) = [false] := by
  refine ⟨?_, rfl, rfl⟩
  decide

/-- FTS row whose only occurrence of the query token is in the indexed
content column. -/
def ftsContentOnlyRow : FtsRow :=
  ⟨7, ["readme"], ["docs", "readme", "md"], ["secret", "token"], ["note"]⟩

/-- Catalog row joined by the C6 search. -/
def ftsScript7 : Script :=
  ⟨7, 1, "/r/readme.md", "readme.md", ".md", none, 10, "2024-05-06 07:08:09", "h7", 1, false⟩

/-- C6: with `searchContent=false` (and `searchNotes=false`) a row
whose only match with the query is in the content column is still
returned — the flags are computed into `search_cols` but never applied
to the MATCH. -/
theorem search_content_flag_not_applied :
    (search_fts [ftsContentOnlyRow] [ftsScript7] ["secret"] false false 1 50).items = [7] ∧
    ¬ (["secret"] <:+: ftsContentOnlyRow.name) ∧
    ¬ (["secret"] <:+: ftsContentOnlyRow.path) ∧
    ¬ (["secret"] <:+: ftsContentOnlyRow.notes) ∧
    (["secret"] <:+: ftsContentOnlyRow.content) := by
  refine ⟨rfl, by decide, by decide, by decide, by decide⟩

/-- Root with one stat-readable but content-unreadable script file and
one fully readable script file. -/
def unreadableTree : FSEntry := .dir "r" false true
  [.file "a.py" false true 50 scenarioMtime none,
   .file "b.py" false true 10 scenarioMtime (some "print(1)\n")]

/-- C7 counterexample: a file whose content read fails (hash and line
count degrade) is NOT excluded from the scan result set — it is
returned with an empty hash and zero line count, alongside the other
file. -/
theorem scan_keeps_read_failed_file :
    scan_directory scenarioCfg "/r" unreadableTree =
      .ok [⟨"/r/a.py", "a.py", ".py", some "Python", 50, scenarioMtime, "", 0⟩,
           ⟨"/r/b.py", "b.py", ".py", some "Python", 10, scenarioMtime, "sha256:print(1)\n", 1⟩] ∧
    ((scan_directory scenarioCfg "/r" unreadableTree).toOption.getD []).map (fun f => f.path)
      = ["/r/a.py", "/r/b.py"] := by
  constructor <;> rfl

/-- C7 amended, part 1: the walk of a directory's children decomposes
over the child list, so one file's outcome never affects the files
around it and the scan always completes. -/
theorem scanList_append (cfg : ScanConfig) (parent : String) (xs ys : List FSEntry) :
    scanList cfg parent (xs ++ ys) = scanList cfg parent xs ++ scanList cfg parent ys := by
  induction xs with
  | nil => simp only [scanList, List.nil_append]
  | cons x xs ih =>
      rw [List.cons_append]
      simp only [scanList]
      rw [ih, List.append_assoc]

/-- C7 amended, part 2: a file whose stat raises contributes nothing to
the scan result, whatever its other attributes. -/
theorem scanList_stat_failure (cfg : ScanConfig) (parent nm : String) (sl : Bool)
    (sz : Nat) (mtv : PyDateTime) (content : Option String) :
    scanList cfg parent [.file nm sl false sz mtv content] = [] := by
  simp only [scanList, scanEntry, List.append_nil]
  split_ifs <;> simp_all

/-- C7 amended, part 3: a qualifying file whose content read raises is
still included, with an empty hash and a zero line count. -/
theorem scanList_read_failure (cfg : ScanConfig) (parent nm : String) (sl : Bool)
    (sz : Nat) (mtv : PyDateTime)
    (hexcl : ¬(patternsActive cfg.excludePatterns ∧
        match_patterns (parent ++ "/" ++ nm) cfg.excludePatterns))
    (hsym : ¬(sl ∧ ¬cfg.followSymlinks))
    (hscript : is_script_file (parent ++ "/" ++ nm))
    (hincl : ¬(patternsActive cfg.includePatterns ∧
        ¬match_patterns (parent ++ "/" ++ nm) cfg.includePatterns))
    (hsize : ¬(cfg.maxFileSize < sz)) :
    scanList cfg parent [.file nm sl true sz mtv none] =
      [⟨parent ++ "/" ++ nm, nm, pyLower (pySuffix (parent ++ "/" ++ nm)),
        detect_language (parent ++ "/" ++ nm), sz, mtv, "", 0⟩] := by
  simp only [scanList, scanEntry, List.append_nil]
  rw [if_neg hexcl, if_neg hsym, if_neg (by simpa using hscript), if_neg hincl]
  simp [if_neg hsize, get_file_hash, get_line_count]

/-- Witness for the C7 amended theorem parts with hypotheses, at the
concrete unreadable file of `unreadableTree`. -/
theorem scanList_read_failure_witness :
    scanList scenarioCfg "/r" [.file "a.py" false true 50 scenarioMtime none] =
      [⟨"/r/a.py", "a.py", ".py", some "Python", 50, scenarioMtime, "", 0⟩] := by
  have h := scanList_read_failure scenarioCfg "/r" "a.py" false 50 scenarioMtime
    (by decide) (by decide) (by decide) (by decide) (by decide)
  simpa using h

/-- C1: in the end-to-end scenario the scan inserts the three entries,
but `FindSimilar(a, threshold=0.9)` does not return `b` (nor anything
else): the candidate loop evaluates `target.get('hash')` on a row
object without a `get` attribute as soon as it meets a candidate whose
hash is truthy, so the call raises AttributeError instead of returning
the similar script. -/
theorem find_similar_crashes_in_scenario :
    scenarioAfterScan.2 = ⟨3, 0, 0⟩ ∧
    find_similar_scripts scenarioSimDB 1 (mkRat 9 10) 10 =
      .error "AttributeError: sqlite3.Row object has no attribute get" := by
  exact ⟨by decide, by decide⟩

/-- C2 counterexample: the similarity score is not symmetric, already
for short texts where the autojunk heuristic plays no role. -/
theorem similarity_not_symmetric :
    calculate_similarity "aabbaba" "abab" ≠ calculate_similarity "abab" "aabbaba" ∧
    calculate_similarity "aabbaba" "abab" = mkRat 8 11 ∧
    calculate_similarity "abab" "aabbaba" = mkRat 6 11 := by
  exact ⟨by decide, by decide, by decide⟩

/-- C10: every reported duplicate group has a non-empty hash, at least
two members, and its count and paths are exactly those of the
non-missing rows carrying that hash — rows with an empty hash or a set
missing flag are never reported. -/
theorem duplicate_groups_sound (tbl : ScriptsTable)
    (hpipe : ∀ r ∈ tbl.rows, '|' ∉ r.path.data) :
    ∀ g ∈ get_duplicate_scripts tbl,
      g.hash ≠ "" ∧ 2 ≤ g.count ∧
      g.count = (tbl.rows.filter (fun r => r.hash = g.hash ∧ r.missing = false)).length ∧
      g.paths = (tbl.rows.filter (fun r => r.hash = g.hash ∧ r.missing = false)).map
        (fun r => r.path) := by
  intro g hg
  unfold get_duplicate_scripts at hg
  rw [List.mem_insertionSort] at hg
  obtain ⟨h, hh, hsome⟩ := List.mem_filterMap.mp hg
  have hne : h ≠ "" := by
    rw [List.mem_dedup] at hh
    obtain ⟨r, hrElig, hrh⟩ := List.mem_map.mp hh
    have := (List.mem_filter.mp hrElig).2
    simp only [decide_eq_true_eq] at this
    exact hrh ▸ this.1
  have hmem_eq :
      (tbl.rows.filter (fun (r : Script) => r.hash ≠ "" ∧ r.missing = false)).filter
        (fun r => r.hash = h)
      = tbl.rows.filter (fun r => r.hash = h ∧ r.missing = false) := by
    rw [List.filter_filter]
    apply List.filter_congr
    intro r _
    by_cases h1 : r.hash = h <;> by_cases h2 : r.missing = false <;>
      simp [h1, h2, hne]
  rw [hmem_eq] at hsome
  simp only [Option.ite_none_right_eq_some, Option.some.injEq] at hsome
  obtain ⟨hlen, hEq⟩ := hsome
  subst hEq
  refine ⟨hne, hlen, rfl, ?_⟩
  apply pySplit_groupConcat
  · intro hempty
    rw [List.map_eq_nil_iff] at hempty
    rw [hempty] at hlen
    simp at hlen
  · intro s hs
    obtain ⟨r, hrmem, rfl⟩ := List.mem_map.mp hs
    exact hpipe r (List.mem_filter.mp hrmem).1

/-- Concrete table for the C10 witness: two non-missing rows share a
hash, a third row with another hash is missing. -/
def dupTable : ScriptsTable :=
  ⟨[⟨1, 1, "/r/a.py", "a.py", ".py", some "Python", 3, "t", "hX", 1, false⟩,
    ⟨2, 1, "/r/b.py", "b.py", ".py", some "Python", 3, "t", "hX", 1, false⟩,
    ⟨3, 1, "/r/c.py", "c.py", ".py", some "Python", 3, "t", "hY", 1, true⟩], 4⟩

/-- Witness for C10 at `dupTable`. -/
theorem duplicate_groups_sound_witness :
    (⟨"hX", 2, ["/r/a.py", "/r/b.py"]⟩ : DupGroup) ∈ get_duplicate_scripts dupTable ∧
    ("hX" : String) ≠ "" ∧ 2 ≤ 2 ∧
    2 = (dupTable.rows.filter (fun r => r.hash = "hX" ∧ r.missing = false)).length ∧
    ["/r/a.py", "/r/b.py"]
      = (dupTable.rows.filter (fun r => r.hash = "hX" ∧ r.missing = false)).map
          (fun r => r.path) :=
  ⟨by decide,
    duplicate_groups_sound dupTable (by decide) ⟨"hX", 2, ["/r/a.py", "/r/b.py"]⟩ (by decide)⟩

/-- Update of a row performed by the missing-marking UPDATE. -/
def setMissing (r : Script) : Script := { r with missing := true }

/-- Closed form of the missing-marking fold: the iterated per-row
UPDATE statements amount to one pointwise map over the table, and the
counter adds one per fetched row whose path is absent. -/
theorem markMissing_foldl (S : List String) :
    ∀ (ts : List Script) (t0 : ScriptsTable) (c : Nat),
      (ts.foldl
        (fun acc row =>
          if row.path ∉ S then
            ({ acc.1 with
               rows := acc.1.rows.map (fun r => if r.id = row.id then { r with missing := true } else r) },
             acc.2 + 1)
          else acc)
        (t0, c))
      = ({ t0 with
           rows := t0.rows.map (fun r =>
             if ts.any (fun t => decide (t.path ∉ S) && decide (t.id = r.id)) then
               { r with missing := true }
             else r) },
         c + (ts.filter (fun t => decide (t.path ∉ S))).length) := by
  intro ts
  induction ts with
  | nil =>
      intro t0 c
      simp
  | cons t ts ih =>
      intro t0 c
      rw [List.foldl_cons]
      by_cases ht : t.path ∉ S
      · rw [if_pos ht, ih]
        rw [Prod.mk.injEq]
        refine ⟨?_, ?_⟩
        · show ScriptsTable.mk _ _ = ScriptsTable.mk _ _
          rw [ScriptsTable.mk.injEq]
          refine ⟨?_, rfl⟩
          rw [List.map_map]
          apply List.map_congr_left
          intro r _
          show (if (ts.any fun t2 =>
              decide (t2.path ∉ S) &&
                decide (t2.id = (if r.id = t.id then { r with missing := true } else r).id)) = true
            then { (if r.id = t.id then { r with missing := true } else r) with missing := true }
            else (if r.id = t.id then { r with missing := true } else r)) = _
          by_cases hid : r.id = t.id
          · rw [if_pos hid]
            have hhead : ((t :: ts).any fun t2 =>
                decide (t2.path ∉ S) && decide (t2.id = r.id)) = true := by
              rw [List.any_cons]
              have h1 : decide (t.path ∉ S) = true := decide_eq_true ht
              have h2 : decide (t.id = r.id) = true := decide_eq_true hid.symm
              rw [h1, h2]
              rfl
            rw [hhead, if_pos rfl]
            show (if _ = true then ({ r with missing := true } : Script) else _)
              = ({ r with missing := true } : Script)
            split <;> rfl
          · rw [if_neg hid]
            have hhead : ((t :: ts).any fun t2 =>
                decide (t2.path ∉ S) && decide (t2.id = r.id))
                = (ts.any fun t2 => decide (t2.path ∉ S) && decide (t2.id = r.id)) := by
              rw [List.any_cons]
              have h2 : decide (t.id = r.id) = false :=
                decide_eq_false (fun (h : t.id = r.id) => hid h.symm)
              rw [h2, Bool.and_false, Bool.false_or]
            rw [hhead]
        · have h1 : decide (t.path ∉ S) = true := decide_eq_true ht
          simp only [List.filter_cons, h1, if_true, List.length_cons]
          omega
      · rw [if_neg ht, ih]
        rw [Prod.mk.injEq]
        refine ⟨?_, ?_⟩
        · show ScriptsTable.mk _ _ = ScriptsTable.mk _ _
          rw [ScriptsTable.mk.injEq]
          refine ⟨?_, rfl⟩
          apply List.map_congr_left
          intro r _
          have hhead : ((t :: ts).any fun t2 =>
              decide (t2.path ∉ S) && decide (t2.id = r.id))
              = (ts.any fun t2 => decide (t2.path ∉ S) && decide (t2.id = r.id)) := by
            rw [List.any_cons]
            have h1 : decide (t.path ∉ S) = false := decide_eq_false ht
            rw [h1, Bool.false_and, Bool.false_or]
          rw [hhead]
        · have h1 : decide (t.path ∉ S) = false := decide_eq_false ht
          simp only [List.filter_cons, h1]
          simp

/-- C4: the missing-marking phase of a scan flags exactly the rows of
the scanned root that were non-missing at the start of the phase and
whose path is absent from the scan result set; `deletedCount` is their
number; every other row — in particular every already-missing row — is
left byte-for-byte unchanged. -/
theorem scan_flags_exactly_new_missing (rootId : Nat) (S : List String) (tbl : ScriptsTable)
    (hids : (tbl.rows.map (fun r => r.id)).Nodup) :
    (markMissingPhase rootId S tbl).1.nextId = tbl.nextId ∧
    (markMissingPhase rootId S tbl).2
      = (tbl.rows.filter (fun r => r.rootId = rootId ∧ r.missing = false ∧ r.path ∉ S)).length ∧
    (markMissingPhase rootId S tbl).1.rows
      = tbl.rows.map (fun r =>
          if r.rootId = rootId ∧ r.missing = false ∧ r.path ∉ S then { r with missing := true }
          else r) ∧
    ∀ r ∈ tbl.rows, r.missing = true → r ∈ (markMissingPhase rootId S tbl).1.rows := by
  unfold markMissingPhase
  rw [markMissing_foldl]
  have hcond : ∀ r ∈ tbl.rows,
      ((tbl.rows.filter (fun r => r.rootId = rootId ∧ r.missing = false)).any
        (fun t => decide (t.path ∉ S) && decide (t.id = r.id)))
      = decide (r.rootId = rootId ∧ r.missing = false ∧ r.path ∉ S) := by
    intro r hr
    by_cases hq : r.rootId = rootId ∧ r.missing = false ∧ r.path ∉ S
    · rw [decide_eq_true hq]
      rw [List.any_eq_true]
      exact ⟨r, List.mem_filter.mpr ⟨hr, by simp [hq.1, hq.2.1]⟩, by simp [hq.2.2]⟩
    · rw [decide_eq_false hq]
      rw [Bool.eq_false_iff]
      intro hany
      rw [List.any_eq_true] at hany
      obtain ⟨t, htmem, htp⟩ := hany
      obtain ⟨htrows, htq⟩ := List.mem_filter.mp htmem
      simp only [Bool.and_eq_true, decide_eq_true_eq] at htp htq
      have := List.inj_on_of_nodup_map hids htrows hr htp.2
      subst this
      exact hq ⟨htq.1, htq.2, htp.1⟩
  have hrows :
      tbl.rows.map (fun r =>
        if (tbl.rows.filter (fun r => r.rootId = rootId ∧ r.missing = false)).any
            (fun t => decide (t.path ∉ S) && decide (t.id = r.id)) then
          { r with missing := true }
        else r)
      = tbl.rows.map (fun r =>
          if r.rootId = rootId ∧ r.missing = false ∧ r.path ∉ S then { r with missing := true }
          else r) := by
    apply List.map_congr_left
    intro r hr
    rw [hcond r hr]
    by_cases hq : r.rootId = rootId ∧ r.missing = false ∧ r.path ∉ S <;> simp [hq]
  refine ⟨rfl, ?_, hrows, ?_⟩
  · rw [Nat.zero_add, List.filter_filter]
    dsimp only
    congr 1
    apply List.filter_congr
    intro r _
    by_cases h1 : r.rootId = rootId <;> by_cases h2 : r.missing = false <;>
      by_cases h3 : r.path ∉ S <;> simp [h1, h2, h3]
  · intro r hr hmiss
    rw [hrows]
    refine List.mem_map.mpr ⟨r, hr, ?_⟩
    rw [if_neg (fun hq => by rw [hmiss] at hq; exact absurd hq.2.1 (by simp))]

/-- Witness for C4 at a three-row table: one root row loses its file,
one root row is still present, one row was already missing. -/
theorem scan_flags_exactly_new_missing_witness :
    ((dupTable.rows.map (fun r => r.id)).Nodup) ∧
    (markMissingPhase 1 ["/r/a.py"] dupTable).1.nextId = dupTable.nextId ∧
    (markMissingPhase 1 ["/r/a.py"] dupTable).2
      = (dupTable.rows.filter
          (fun r => r.rootId = 1 ∧ r.missing = false ∧ r.path ∉ ["/r/a.py"])).length ∧
    (markMissingPhase 1 ["/r/a.py"] dupTable).1.rows
      = dupTable.rows.map (fun r =>
          if r.rootId = 1 ∧ r.missing = false ∧ r.path ∉ ["/r/a.py"] then
            { r with missing := true }
          else r) :=
  ⟨by decide,
    (scan_flags_exactly_new_missing 1 ["/r/a.py"] dupTable (by decide)).1,
    (scan_flags_exactly_new_missing 1 ["/r/a.py"] dupTable (by decide)).2.1,
    (scan_flags_exactly_new_missing 1 ["/r/a.py"] dupTable (by decide)).2.2.1⟩

/-! ## Roundtrip of the datetime format through the parser -/

theorem charDigit_digChar (n : Nat) (h : n ≤ 9) : charDigit? (digChar n) = some n := by
  interval_cases n <;> rfl

theorem digChar_isDigit (n : Nat) (h : n ≤ 9) : (charDigit? (digChar n)).isSome = true := by
  rw [charDigit_digChar n h]
  rfl

theorem dig2_pad2 (n : Nat) (h : n < 100) :
    dig2? (digChar (n / 10)) (digChar (n % 10)) = some n := by
  unfold dig2?
  rw [charDigit_digChar (n / 10) (by omega), charDigit_digChar (n % 10) (by omega)]
  simp only
  congr 1
  omega

theorem dig4_pad4 (n : Nat) (h : n < 10000) :
    dig4? (digChar (n / 1000)) (digChar (n / 100 % 10)) (digChar (n / 10 % 10))
      (digChar (n % 10)) = some n := by
  unfold dig4?
  rw [charDigit_digChar (n / 1000) (by omega), charDigit_digChar (n / 100 % 10) (by omega),
    charDigit_digChar (n / 10 % 10) (by omega), charDigit_digChar (n % 10) (by omega)]
  simp only
  congr 1
  omega

theorem digitsToNat_cons {c : Char} {cs : List Char} {d r : Nat}
    (h1 : charDigit? c = some d) (h2 : digitsToNat? cs = some r) :
    digitsToNat? (c :: cs) = some (d * 10 ^ cs.length + r) := by
  unfold digitsToNat?
  rw [h1, h2]
  rfl

theorem digitsToNat_pad6 (n : Nat) (h : n < 1000000) :
    digitsToNat? (pad6 n) = some n := by
  have l1 := digitsToNat_cons (charDigit_digChar (n % 10) (by omega))
    (rfl : digitsToNat? [] = some 0)
  have l2 := digitsToNat_cons (charDigit_digChar (n / 10 % 10) (by omega)) l1
  have l3 := digitsToNat_cons (charDigit_digChar (n / 100 % 10) (by omega)) l2
  have l4 := digitsToNat_cons (charDigit_digChar (n / 1000 % 10) (by omega)) l3
  have l5 := digitsToNat_cons (charDigit_digChar (n / 10000 % 10) (by omega)) l4
  have l6 := digitsToNat_cons (charDigit_digChar (n / 100000) (by omega)) l5
  unfold pad6
  rw [l6]
  simp only [List.length_cons, List.length_nil]
  norm_num
  omega

/-- Shape condition under which `takeDigits` consumes nothing: empty
input or a non-digit head. -/
def noDigitHead : List Char → Prop
  | [] => True
  | c :: _ => (charDigit? c).isSome = false

theorem takeDigits_of_noDigitHead (rest : List Char) (h : noDigitHead rest) :
    takeDigits rest = ([], rest) := by
  cases rest with
  | nil => rfl
  | cons c cs =>
      rw [takeDigits]
      simp only [noDigitHead] at h
      rw [h]
      simp

theorem takeDigits_append (ds rest : List Char) (hds : ∀ c ∈ ds, (charDigit? c).isSome = true)
    (hrest : noDigitHead rest) : takeDigits (ds ++ rest) = (ds, rest) := by
  induction ds with
  | nil => simpa using takeDigits_of_noDigitHead rest hrest
  | cons c cs ih =>
      rw [List.cons_append, takeDigits]
      rw [hds c (List.mem_cons_self c cs)]
      rw [ih (fun x hx => hds x (List.mem_cons_of_mem c hx))]
      simp

theorem noDigitHead_offsetChars (off : Option Int) : noDigitHead (offsetChars off) := by
  cases off with
  | none => trivial
  | some o =>
      by_cases h : 0 ≤ o <;> simp [offsetChars, h, noDigitHead, charDigit?]

theorem pad2_all_digits (n : Nat) (h : n < 100) :
    ∀ c ∈ pad2 n, (charDigit? c).isSome = true := by
  intro c hc
  rcases List.mem_cons.mp hc with rfl | hc2
  · exact digChar_isDigit _ (by omega)
  · rcases List.mem_cons.mp hc2 with rfl | hc3
    · exact digChar_isDigit _ (by omega)
    · simp at hc3

theorem pad6_all_digits (n : Nat) (h : n < 1000000) :
    ∀ c ∈ pad6 n, (charDigit? c).isSome = true := by
  intro c hc
  simp only [pad6, List.mem_cons, List.not_mem_nil, or_false] at hc
  rcases hc with rfl | rfl | rfl | rfl | rfl | rfl <;> exact digChar_isDigit _ (by omega)

theorem parseOffset_offsetChars (off : Option Int) (hoff : validOffset off) :
    parseOffset (offsetChars off) = some off := by
  cases off with
  | none => rfl
  | some o =>
      have hlt : o.natAbs < 1440 := hoff
      by_cases hsign : 0 ≤ o
      · rw [show offsetChars (some o)
          = ['+', digChar (o.natAbs / 60 / 10), digChar (o.natAbs / 60 % 10), ':',
             digChar (o.natAbs % 60 / 10), digChar (o.natAbs % 60 % 10)] by
            simp [offsetChars, hsign, pad2]]
        rw [parseOffset]
        rw [charDigit_digChar (o.natAbs / 60 / 10) (by omega),
            charDigit_digChar (o.natAbs / 60 % 10) (by omega),
            charDigit_digChar (o.natAbs % 60 / 10) (by omega),
            charDigit_digChar (o.natAbs % 60 % 10) (by omega)]
        simp only
        rw [if_pos (by constructor <;> omega)]
        rw [if_pos trivial]
        simp only [Option.some.injEq]
        obtain ⟨H, hH⟩ : ∃ H, o.natAbs / 60 = H := ⟨_, rfl⟩
        obtain ⟨M, hM⟩ : ∃ M, o.natAbs % 60 = M := ⟨_, rfl⟩
        rw [hH, hM]
        omega
      · rw [show offsetChars (some o)
          = ['-', digChar (o.natAbs / 60 / 10), digChar (o.natAbs / 60 % 10), ':',
             digChar (o.natAbs % 60 / 10), digChar (o.natAbs % 60 % 10)] by
            simp [offsetChars, hsign, pad2]]
        rw [parseOffset]
        rw [charDigit_digChar (o.natAbs / 60 / 10) (by omega),
            charDigit_digChar (o.natAbs / 60 % 10) (by omega),
            charDigit_digChar (o.natAbs % 60 / 10) (by omega),
            charDigit_digChar (o.natAbs % 60 % 10) (by omega)]
        simp only
        rw [if_pos (by constructor <;> omega)]
        rw [if_pos trivial]
        rw [if_neg (show ¬('-' = '+') by decide)]
        simp only [Option.some.injEq]
        obtain ⟨H, hH⟩ : ∃ H, o.natAbs / 60 = H := ⟨_, rfl⟩
        obtain ⟨M, hM⟩ : ∃ M, o.natAbs % 60 = M := ⟨_, rfl⟩
        rw [hH, hM]
        omega

/-- Heads that cannot begin a fractional part. -/
def noDotHead : List Char → Prop
  | [] => True
  | c :: _ => c ≠ '.'

theorem parseFrac_of_noDotHead (cs : List Char) (h : noDotHead cs) :
    parseFrac cs = some (0, cs) := by
  cases cs with
  | nil => rfl
  | cons c cs =>
      simp only [noDotHead] at h
      rw [parseFrac.eq_def]
      split
      · next heq => exact absurd (List.head_eq_of_cons_eq heq) h
      · rfl

theorem noDotHead_offsetChars (off : Option Int) : noDotHead (offsetChars off) := by
  cases off with
  | none => trivial
  | some o =>
      by_cases h : 0 ≤ o <;> simp [offsetChars, h, noDotHead, pad2]

theorem parseTail_format (y mo dd hh mi ss μ : Nat) (off : Option Int)
    (hμ : μ < 1000000) (hoff : validOffset off)
    (hfields : 1 ≤ mo ∧ mo ≤ 12 ∧ 1 ≤ dd ∧ dd ≤ 31 ∧ hh ≤ 23 ∧ mi ≤ 59 ∧ ss ≤ 59) :
    parseTail y mo dd hh mi ss ((if μ ≠ 0 then '.' :: pad6 μ else []) ++ offsetChars off)
      = some ⟨y, mo, dd, hh, mi, ss, μ, off⟩ := by
  by_cases hm : μ = 0
  · subst hm
    rw [if_neg (by simp), List.nil_append]
    unfold parseTail
    rw [parseFrac_of_noDotHead _ (noDotHead_offsetChars off)]
    dsimp only
    rw [parseOffset_offsetChars off hoff]
    dsimp only
    unfold mkDateTime
    rw [if_pos hfields]
  · rw [if_pos hm, List.cons_append]
    unfold parseTail
    have htd := takeDigits_append (pad6 μ) (offsetChars off)
      (pad6_all_digits μ hμ) (noDigitHead_offsetChars off)
    rw [show parseFrac ('.' :: (pad6 μ ++ offsetChars off))
        = some (μ, offsetChars off) by
      rw [parseFrac]
      rw [htd]
      rw [if_neg (by simp [pad6])]
      rw [List.take_left' (by rfl)]
      rw [digitsToNat_pad6 μ hμ]]
    dsimp only
    rw [parseOffset_offsetChars off hoff]
    dsimp only
    unfold mkDateTime
    rw [if_pos hfields]

theorem parseIsoChars_format (d : PyDateTime) (hd : ValidDT d) :
    parseIsoChars (pyIsoformat ' ' d) = some d := by
  obtain ⟨y, mo, dd, hh, mi, ss, μ, off⟩ := d
  dsimp only [ValidDT] at hd
  obtain ⟨hy1, hy2, hmo1, hmo2, hdd1, hdd2, hhh, hmi, hss, hμ, hoff⟩ := hd
  have hfmt : pyIsoformat ' ' ⟨y, mo, dd, hh, mi, ss, μ, off⟩ =
      digChar (y / 1000) :: digChar (y / 100 % 10) :: digChar (y / 10 % 10) ::
      digChar (y % 10) :: '-' :: digChar (mo / 10) :: digChar (mo % 10) :: '-' ::
      digChar (dd / 10) :: digChar (dd % 10) :: ' ' :: digChar (hh / 10) ::
      digChar (hh % 10) :: ':' :: digChar (mi / 10) :: digChar (mi % 10) :: ':' ::
      digChar (ss / 10) :: digChar (ss % 10) ::
      ((if μ ≠ 0 then '.' :: pad6 μ else []) ++ offsetChars off) := by
    simp [pyIsoformat, pad4, pad2]
  rw [hfmt]
  rw [parseIsoChars]
  rw [if_pos (Or.inl rfl)]
  rw [dig4_pad4 y (by omega), dig2_pad2 mo (by omega), dig2_pad2 dd (by omega),
      dig2_pad2 hh (by omega), dig2_pad2 mi (by omega), dig2_pad2 ss (by omega)]
  dsimp only
  exact parseTail_format y mo dd hh mi ss μ off (by omega) hoff
    ⟨hmo1, hmo2, hdd1, hdd2, hhh, hmi, hss⟩

/-- Leap-year predicate of the proleptic Gregorian calendar. -/
def isLeap (y : Nat) : Bool :=
  (y % 4 == 0 && y % 100 != 0) || y % 400 == 0

/-- Days before the first of month `m` in year `y`. -/
def daysBeforeMonth (y m : Nat) : Nat :=
  (match m with
   | 1 => 0 | 2 => 31 | 3 => 59 | 4 => 90 | 5 => 120 | 6 => 151
   | 7 => 181 | 8 => 212 | 9 => 243 | 10 => 273 | 11 => 304 | _ => 334) +
  (if 3 ≤ m then (if isLeap y then 1 else 0) else 0)

/-- Days from 0001-01-01 of the proleptic Gregorian calendar. -/
def daysFromCivil (y m d : Nat) : Nat :=
  365 * (y - 1) + ((y - 1) / 4 - (y - 1) / 100 + (y - 1) / 400) +
  daysBeforeMonth y m + (d - 1)

/-- Absolute instant denoted by a timezone-aware datetime value, in
microseconds since 0001-01-01 UTC; `none` for naive values, which denote
no absolute instant. -/
def instantMicros : PyDateTime → Option Int
  | ⟨y, mo, dd, hh, mi, ss, μ, some off⟩ =>
      some ((((daysFromCivil y mo dd : Int) * 1440 + hh * 60 + mi - off) * 60 + ss)
        * 1000000 + μ)
  | _ => none

theorem digChar_ne_Z (n : Nat) : digChar n ≠ 'Z' := by
  unfold digChar
  split <;> decide

theorem pad2_ne_Z (n : Nat) : ∀ c ∈ pad2 n, c ≠ 'Z' := by
  intro c hc
  rcases (by simpa [pad2] using hc : c = digChar (n / 10) ∨ c = digChar (n % 10)) with
    rfl | rfl <;> exact digChar_ne_Z _

theorem pad4_ne_Z (n : Nat) : ∀ c ∈ pad4 n, c ≠ 'Z' := by
  intro c hc
  simp only [pad4, List.mem_cons, List.not_mem_nil, or_false] at hc
  rcases hc with rfl | rfl | rfl | rfl <;> exact digChar_ne_Z _

theorem pad6_ne_Z (n : Nat) : ∀ c ∈ pad6 n, c ≠ 'Z' := by
  intro c hc
  simp only [pad6, List.mem_cons, List.not_mem_nil, or_false] at hc
  rcases hc with rfl | rfl | rfl | rfl | rfl | rfl <;> exact digChar_ne_Z _

theorem offsetChars_ne_Z (off : Option Int) : ∀ c ∈ offsetChars off, c ≠ 'Z' := by
  intro c hc
  cases off with
  | none => simp [offsetChars] at hc
  | some o =>
      by_cases h : 0 ≤ o <;>
        simp only [offsetChars, h, if_pos, if_neg, not_false_iff, pad2,
          List.cons_append, List.nil_append, List.mem_cons, List.not_mem_nil,
          or_false] at hc <;>
        rcases hc with rfl | rfl | rfl | rfl | rfl | rfl <;>
        first
        | decide
        | exact digChar_ne_Z _

theorem frac_ne_Z (μ : Nat) :
    ∀ c ∈ (if μ ≠ 0 then '.' :: pad6 μ else []), c ≠ 'Z' := by
  split
  · intro c hc
    rcases List.mem_cons.mp hc with rfl | hc2
    · decide
    · exact pad6_ne_Z μ c hc2
  · intro c hc
    simp at hc

theorem listNeZ_append {l1 l2 : List Char} (h1 : ∀ c ∈ l1, c ≠ 'Z')
    (h2 : ∀ c ∈ l2, c ≠ 'Z') : ∀ c ∈ l1 ++ l2, c ≠ 'Z' :=
  fun c hc => (List.mem_append.mp hc).elim (h1 c) (h2 c)

theorem sing_ne_Z {a : Char} (h : a ≠ 'Z') : ∀ c ∈ [a], c ≠ 'Z' := by
  intro c hc
  rcases List.mem_singleton.mp hc with rfl
  exact h

theorem pyIsoformat_space_ne_Z (d : PyDateTime) : ∀ c ∈ pyIsoformat ' ' d, c ≠ 'Z' := by
  unfold pyIsoformat
  exact listNeZ_append (listNeZ_append (listNeZ_append (listNeZ_append (listNeZ_append
    (listNeZ_append (listNeZ_append (listNeZ_append (listNeZ_append (listNeZ_append
      (listNeZ_append (listNeZ_append (pad4_ne_Z _) (sing_ne_Z (by decide)))
        (pad2_ne_Z _)) (sing_ne_Z (by decide))) (pad2_ne_Z _)) (sing_ne_Z (by decide)))
      (pad2_ne_Z _)) (sing_ne_Z (by decide))) (pad2_ne_Z _)) (sing_ne_Z (by decide)))
    (pad2_ne_Z _)) (frac_ne_Z _)) (offsetChars_ne_Z _)

theorem replaceZ_of_no_Z (cs : List Char) (h : ∀ c ∈ cs, c ≠ 'Z') :
    replaceZ cs = cs := by
  induction cs with
  | nil => rfl
  | cons c cs ih =>
      have hc : ¬ c = 'Z' := h c (List.mem_cons_self c cs)
      rw [replaceZ, List.flatMap_cons, if_neg hc, List.singleton_append]
      exact congrArg (c :: ·) (ih (fun x hx => h x (List.mem_cons_of_mem c hx)))

theorem normalize_str_adapt (d : PyDateTime) (hd : ValidDT d) :
    _normalize_mtime (.str (pyAdaptDatetime d)) = _normalize_mtime (.dt d) := by
  have hz : replaceZ (String.mk (pyIsoformat ' ' d)).data = pyIsoformat ' ' d :=
    replaceZ_of_no_Z _ (pyIsoformat_space_ne_Z d)
  simp only [_normalize_mtime, pyAdaptDatetime, hz, parseIsoChars_format d hd]

/-- C5: the claim fails for timezone representation.  The two stored
strings below denote the same absolute instant (13:00 at +01:00 is 12:00
UTC), yet `_normalize_mtime` maps them to distinct normalized values, so
the reconciler's changed/unchanged comparison treats them as different. -/
theorem mtime_normalization_not_instant_invariant :
    ((parseIsoChars ("2024-01-01 12:00:00+00:00".data)).bind instantMicros
        = (parseIsoChars ("2024-01-01 13:00:00+01:00".data)).bind instantMicros)
    ∧ ((parseIsoChars ("2024-01-01 12:00:00+00:00".data)).bind instantMicros).isSome = true
    ∧ _normalize_mtime (.str "2024-01-01 12:00:00+00:00")
        ≠ _normalize_mtime (.str "2024-01-01 13:00:00+01:00") := by
  decide

/-- C5 (amended): for a fixed timezone representation the normalization
does canonicalize the representation differences: a datetime object and
its sqlite string form, with arbitrary (possibly different) sub-second
parts, normalize to the same value. -/
theorem mtime_normalization_subsecond_invariant (d : PyDateTime) (μ1 μ2 : Nat)
    (hd : ValidDT d) (_h1 : μ1 ≤ 999999) (h2 : μ2 ≤ 999999) :
    _normalize_mtime (.dt { d with microsecond := μ1 })
      = _normalize_mtime (.str (pyAdaptDatetime { d with microsecond := μ2 })) := by
  obtain ⟨a1, a2, a3, a4, a5, a6, a7, a8, a9, _, a11⟩ := hd
  have hv2 : ValidDT { d with microsecond := μ2 } :=
    ⟨a1, a2, a3, a4, a5, a6, a7, a8, a9, h2, a11⟩
  rw [normalize_str_adapt _ hv2]
  rfl

theorem mtime_normalization_subsecond_invariant_witness :
    _normalize_mtime (.dt ⟨2024, 1, 1, 12, 0, 0, 123456, Option.none⟩)
      = _normalize_mtime (.str (pyAdaptDatetime ⟨2024, 1, 1, 12, 0, 0, 999, Option.none⟩)) :=
  mtime_normalization_subsecond_invariant ⟨2024, 1, 1, 12, 0, 0, 0, Option.none⟩
    123456 999 (by decide) (by decide) (by decide)

/-- Catalog well-formedness maintained by sqlite: primary keys are
unique and below the AUTOINCREMENT counter. -/
def TableWF (tbl : ScriptsTable) : Prop :=
  (tbl.rows.map (fun r => r.id)).Nodup ∧ ∀ r ∈ tbl.rows, r.id < tbl.nextId

instance TableWF.dec (tbl : ScriptsTable) : Decidable (TableWF tbl) := by
  unfold TableWF
  infer_instance

/-- State in which a scanned file needs no update: the first catalog row
for its path already has the same hash and the same normalized mtime. -/
def GoodRow (s : ScanFile) (tbl : ScriptsTable) : Prop :=
  ∃ r, tbl.rows.find? (fun x => x.path = s.path) = some r ∧
    r.hash = s.hash ∧
    _normalize_mtime (.str r.mtime) = _normalize_mtime (.dt s.mtime)

theorem find?_map_of_path_eq (f : Script → Script) (hf : ∀ r, (f r).path = r.path)
    (p : String) : ∀ l : List Script,
    (l.map f).find? (fun x => x.path = p) = (l.find? (fun x => x.path = p)).map f := by
  intro l
  induction l with
  | nil => rfl
  | cons a l ih =>
      by_cases h : a.path = p
      · rw [List.map_cons]
        rw [show List.find? (fun x => decide (x.path = p)) (f a :: List.map f l)
            = some (f a) from
          List.find?_cons_of_pos _ (by simp only [decide_eq_true_eq, hf]; exact h)]
        rw [show List.find? (fun x => decide (x.path = p)) (a :: l) = some a from
          List.find?_cons_of_pos _ (decide_eq_true h)]
        rfl
      · rw [List.map_cons]
        rw [show List.find? (fun x => decide (x.path = p)) (f a :: List.map f l)
            = List.find? (fun x => decide (x.path = p)) (List.map f l) from
          List.find?_cons_of_neg _ (by simp only [decide_eq_true_eq, hf]; exact h)]
        rw [show List.find? (fun x => decide (x.path = p)) (a :: l)
            = List.find? (fun x => decide (x.path = p)) l from
          List.find?_cons_of_neg _ (by simp only [decide_eq_true_eq]; exact h)]
        exact ih

theorem find?_append_some {l1 l2 : List Script} {p : Script → Bool} {a : Script}
    (h : l1.find? p = some a) : (l1 ++ l2).find? p = some a := by
  induction l1 with
  | nil => simp at h
  | cons b l1 ih =>
      by_cases hb : p b = true
      · rw [List.find?_cons_of_pos _ hb] at h
        rw [List.cons_append, List.find?_cons_of_pos _ hb]
        exact h
      · rw [List.find?_cons_of_neg _ hb] at h
        rw [List.cons_append, List.find?_cons_of_neg _ hb]
        exact ih h

theorem find?_append_none {l1 l2 : List Script} {p : Script → Bool}
    (h : l1.find? p = none) : (l1 ++ l2).find? p = l2.find? p := by
  induction l1 with
  | nil => rfl
  | cons b l1 ih =>
      by_cases hb : p b = true
      · rw [List.find?_cons_of_pos _ hb] at h
        exact absurd h (by simp)
      · rw [List.find?_cons_of_neg _ hb] at h
        rw [List.cons_append, List.find?_cons_of_neg _ hb]
        exact ih h

theorem processScanFile_eq_update (rid : Nat) (st : ScriptsTable × Nat × Nat)
    (s : ScanFile) (e : Script)
    (hfind : st.1.rows.find? (fun r => r.path = s.path) = some e)
    (hch : e.hash ≠ s.hash ∨
      _normalize_mtime (.str e.mtime) ≠ _normalize_mtime (.dt s.mtime)) :
    processScanFile rid st s =
      ({ st.1 with
         rows := st.1.rows.map (fun r => if r.id = e.id then scriptUpdatedFields s r else r) },
       st.2.1, st.2.2 + 1) := by
  simp only [processScanFile]
  rw [hfind]
  dsimp only
  rw [if_pos hch]

theorem processScanFile_eq_clear (rid : Nat) (st : ScriptsTable × Nat × Nat)
    (s : ScanFile) (e : Script)
    (hfind : st.1.rows.find? (fun r => r.path = s.path) = some e)
    (hch : ¬ (e.hash ≠ s.hash ∨
      _normalize_mtime (.str e.mtime) ≠ _normalize_mtime (.dt s.mtime))) :
    processScanFile rid st s =
      ({ st.1 with
         rows := st.1.rows.map (fun r => if r.id = e.id then { r with missing := false } else r) },
       st.2.1, st.2.2) := by
  simp only [processScanFile]
  rw [hfind]
  dsimp only
  rw [if_neg hch]

theorem processScanFile_eq_insert (rid : Nat) (st : ScriptsTable × Nat × Nat)
    (s : ScanFile)
    (hfind : st.1.rows.find? (fun r => r.path = s.path) = none) :
    processScanFile rid st s =
      ({ rows := st.1.rows ++ [insertedScript st.1.nextId rid s],
         nextId := st.1.nextId + 1 },
       st.2.1 + 1, st.2.2) := by
  simp only [processScanFile]
  rw [hfind]

theorem processScanFile_WF (rid : Nat) (st : ScriptsTable × Nat × Nat) (s : ScanFile)
    (h : TableWF st.1) : TableWF (processScanFile rid st s).1 := by
  obtain ⟨hnd, hlt⟩ := h
  cases hfind : st.1.rows.find? (fun r => r.path = s.path) with
  | some e =>
      by_cases hch : e.hash ≠ s.hash ∨
          _normalize_mtime (.str e.mtime) ≠ _normalize_mtime (.dt s.mtime)
      · rw [processScanFile_eq_update rid st s e hfind hch]
        constructor
        · dsimp only
          rw [List.map_map]
          have heq : ((fun r : Script => r.id) ∘
                fun r => if r.id = e.id then scriptUpdatedFields s r else r)
              = fun r : Script => r.id := by
            funext r
            by_cases hid : r.id = e.id <;> simp [Function.comp, hid, scriptUpdatedFields]
          rw [heq]
          exact hnd
        · intro r hr
          dsimp only at hr ⊢
          obtain ⟨r0, hr0, rfl⟩ := List.mem_map.mp hr
          by_cases hid : r0.id = e.id
          · rw [if_pos hid]
            exact hlt r0 hr0
          · rw [if_neg hid]
            exact hlt r0 hr0
      · rw [processScanFile_eq_clear rid st s e hfind hch]
        constructor
        · dsimp only
          rw [List.map_map]
          have heq : ((fun r : Script => r.id) ∘
                fun r => if r.id = e.id then { r with missing := false } else r)
              = fun r : Script => r.id := by
            funext r
            by_cases hid : r.id = e.id <;> simp [Function.comp, hid]
          rw [heq]
          exact hnd
        · intro r hr
          dsimp only at hr ⊢
          obtain ⟨r0, hr0, rfl⟩ := List.mem_map.mp hr
          by_cases hid : r0.id = e.id
          · rw [if_pos hid]
            exact hlt r0 hr0
          · rw [if_neg hid]
            exact hlt r0 hr0
  | none =>
      rw [processScanFile_eq_insert rid st s hfind]
      constructor
      · dsimp only
        rw [List.map_append, List.nodup_append]
        refine ⟨hnd, List.nodup_singleton _, ?_⟩
        intro a ha hb
        obtain ⟨r0, hr0, rfl⟩ := List.mem_map.mp ha
        have hb2 : r0.id = st.1.nextId := by
          simpa [insertedScript] using hb
        have := hlt r0 hr0
        omega
      · intro r hr
        dsimp only at hr ⊢
        rcases List.mem_append.mp hr with h1 | h2
        · exact Nat.lt_succ_of_lt (hlt r h1)
        · rcases List.mem_singleton.mp h2 with rfl
          show st.1.nextId < st.1.nextId + 1
          omega

theorem processScanFile_goodrow_self (rid : Nat) (st : ScriptsTable × Nat × Nat)
    (s : ScanFile) (hv : ValidDT s.mtime) :
    GoodRow s (processScanFile rid st s).1 := by
  cases hfind : st.1.rows.find? (fun r => r.path = s.path) with
  | some e =>
      by_cases hch : e.hash ≠ s.hash ∨
          _normalize_mtime (.str e.mtime) ≠ _normalize_mtime (.dt s.mtime)
      · rw [processScanFile_eq_update rid st s e hfind hch]
        refine ⟨scriptUpdatedFields s e, ?_, rfl, ?_⟩
        · show (st.1.rows.map fun r => if r.id = e.id then scriptUpdatedFields s r else r).find?
              (fun x => x.path = s.path) = some (scriptUpdatedFields s e)
          rw [find?_map_of_path_eq _
              (fun r => by by_cases hid : r.id = e.id <;> simp [hid, scriptUpdatedFields])
              s.path st.1.rows, hfind]
          show some (if e.id = e.id then scriptUpdatedFields s e else e)
              = some (scriptUpdatedFields s e)
          rw [if_pos rfl]
        · exact normalize_str_adapt s.mtime hv
      · push_neg at hch
        obtain ⟨hh, hm⟩ := hch
        rw [processScanFile_eq_clear rid st s e hfind (by push_neg; exact ⟨hh, hm⟩)]
        refine ⟨{ e with missing := false }, ?_, hh, hm⟩
        show (st.1.rows.map fun r => if r.id = e.id then { r with missing := false } else r).find?
            (fun x => x.path = s.path) = some { e with missing := false }
        rw [find?_map_of_path_eq _
            (fun r => by by_cases hid : r.id = e.id <;> simp [hid])
            s.path st.1.rows, hfind]
        show some (if e.id = e.id then { e with missing := false } else e)
            = some { e with missing := false }
        rw [if_pos rfl]
  | none =>
      rw [processScanFile_eq_insert rid st s hfind]
      refine ⟨insertedScript st.1.nextId rid s, ?_, rfl, ?_⟩
      · show (st.1.rows ++ [insertedScript st.1.nextId rid s]).find?
            (fun x => x.path = s.path) = some (insertedScript st.1.nextId rid s)
        rw [find?_append_none hfind]
        exact List.find?_cons_of_pos _ (decide_eq_true rfl)
      · exact normalize_str_adapt s.mtime hv

theorem processScanFile_goodrow_other (rid : Nat) (st : ScriptsTable × Nat × Nat)
    (s t : ScanFile) (hWF : TableWF st.1)
    (hne : t.path ≠ s.path) (ht : GoodRow t st.1) : GoodRow t (processScanFile rid st s).1 := by
  obtain ⟨r, hr, hrh, hrm⟩ := ht
  have hrmem : r ∈ st.1.rows := List.mem_of_find?_eq_some hr
  have hrp0 := List.find?_some hr
  have hrpath : r.path = t.path := of_decide_eq_true hrp0
  cases hfind : st.1.rows.find? (fun x => x.path = s.path) with
  | some e =>
      have hemem : e ∈ st.1.rows := List.mem_of_find?_eq_some hfind
      have hep0 := List.find?_some hfind
      have hepath : e.path = s.path := of_decide_eq_true hep0
      have hidne : ¬ r.id = e.id := by
        intro hid
        have hre : r = e := List.inj_on_of_nodup_map hWF.1 hrmem hemem hid
        apply hne
        rw [← hrpath, hre, hepath]
      by_cases hch : e.hash ≠ s.hash ∨
          _normalize_mtime (.str e.mtime) ≠ _normalize_mtime (.dt s.mtime)
      · rw [processScanFile_eq_update rid st s e hfind hch]
        refine ⟨r, ?_, hrh, hrm⟩
        show (st.1.rows.map fun x => if x.id = e.id then scriptUpdatedFields s x else x).find?
            (fun x => x.path = t.path) = some r
        rw [find?_map_of_path_eq _
            (fun x => by by_cases hid : x.id = e.id <;> simp [hid, scriptUpdatedFields])
            t.path st.1.rows, hr]
        show some (if r.id = e.id then scriptUpdatedFields s r else r) = some r
        rw [if_neg hidne]
      · rw [processScanFile_eq_clear rid st s e hfind hch]
        refine ⟨r, ?_, hrh, hrm⟩
        show (st.1.rows.map fun x => if x.id = e.id then { x with missing := false } else x).find?
            (fun x => x.path = t.path) = some r
        rw [find?_map_of_path_eq _
            (fun x => by by_cases hid : x.id = e.id <;> simp [hid])
            t.path st.1.rows, hr]
        show some (if r.id = e.id then { r with missing := false } else r) = some r
        rw [if_neg hidne]
  | none =>
      rw [processScanFile_eq_insert rid st s hfind]
      refine ⟨r, ?_, hrh, hrm⟩
      show (st.1.rows ++ [insertedScript st.1.nextId rid s]).find?
          (fun x => x.path = t.path) = some r
      exact find?_append_some hr

theorem processScanFile_counts_of_good (rid : Nat) (st : ScriptsTable × Nat × Nat)
    (s : ScanFile) (hs : GoodRow s st.1) : (processScanFile rid st s).2 = st.2 := by
  obtain ⟨r, hr, hrh, hrm⟩ := hs
  rw [processScanFile_eq_clear rid st s r hr (by push_neg; exact ⟨hrh, hrm⟩)]

theorem processScanFile_goodrow_all_of_good (rid : Nat) (st : ScriptsTable × Nat × Nat)
    (s t : ScanFile) (hs : GoodRow s st.1) (ht : GoodRow t st.1) :
    GoodRow t (processScanFile rid st s).1 := by
  obtain ⟨e, he, heh, hem⟩ := hs
  obtain ⟨r, hr, hrh, hrm⟩ := ht
  rw [processScanFile_eq_clear rid st s e he (by push_neg; exact ⟨heh, hem⟩)]
  refine ⟨if r.id = e.id then { r with missing := false } else r, ?_, ?_, ?_⟩
  · show (st.1.rows.map fun x => if x.id = e.id then { x with missing := false } else x).find?
        (fun x => x.path = t.path) = _
    rw [find?_map_of_path_eq _
        (fun x => by by_cases hid : x.id = e.id <;> simp [hid]) t.path st.1.rows, hr]
    rfl
  · by_cases hid : r.id = e.id
    · rw [if_pos hid]
      exact hrh
    · rw [if_neg hid]
      exact hrh
  · by_cases hid : r.id = e.id
    · rw [if_pos hid]
      exact hrm
    · rw [if_neg hid]
      exact hrm

theorem processScanFile_post (rid : Nat) (S : List String) (st : ScriptsTable × Nat × Nat)
    (s : ScanFile) (hWF : TableWF st.1) (hs : GoodRow s st.1) (hsp : s.path ∈ S)
    (hpost : ∀ r ∈ st.1.rows, r.rootId = rid → r.missing = false → r.path ∈ S) :
    ∀ r ∈ (processScanFile rid st s).1.rows,
      r.rootId = rid → r.missing = false → r.path ∈ S := by
  obtain ⟨e, he, heh, hem⟩ := hs
  have hemem : e ∈ st.1.rows := List.mem_of_find?_eq_some he
  have hep0 := List.find?_some he
  have hepath : e.path = s.path := of_decide_eq_true hep0
  rw [processScanFile_eq_clear rid st s e he (by push_neg; exact ⟨heh, hem⟩)]
  intro r hr hroot hmiss
  dsimp only at hr
  obtain ⟨r0, hr0, rfl⟩ := List.mem_map.mp hr
  by_cases hid : r0.id = e.id
  · have hre : r0 = e := List.inj_on_of_nodup_map hWF.1 hr0 hemem hid
    rw [if_pos hid]
    show r0.path ∈ S
    rw [hre, hepath]
    exact hsp
  · rw [if_neg hid] at hroot hmiss ⊢
    exact hpost r0 hr0 hroot hmiss

theorem foldl_preserves_goodrow (rid : Nat) :
    ∀ (fs : List ScanFile) (st : ScriptsTable × Nat × Nat) (t : ScanFile),
      TableWF st.1 → GoodRow t st.1 → t.path ∉ fs.map (fun s => s.path) →
      GoodRow t (fs.foldl (processScanFile rid) st).1 := by
  intro fs
  induction fs with
  | nil =>
      intro st t _ h _
      exact h
  | cons s fs ih =>
      intro st t hWF ht hnin
      rw [List.foldl_cons]
      have hnin2 : ¬ (t.path = s.path ∨ t.path ∈ fs.map (fun s => s.path)) := by
        simpa using hnin
      exact ih (processScanFile rid st s) t (processScanFile_WF rid st s hWF)
        (processScanFile_goodrow_other rid st s t hWF (fun h => hnin2 (Or.inl h)) ht)
        (fun h => hnin2 (Or.inr h))

theorem phase1_establishes (rid : Nat) :
    ∀ (files : List ScanFile) (st : ScriptsTable × Nat × Nat),
      TableWF st.1 → (files.map (fun s => s.path)).Nodup →
      (∀ s ∈ files, ValidDT s.mtime) →
      TableWF (files.foldl (processScanFile rid) st).1 ∧
      ∀ s ∈ files, GoodRow s (files.foldl (processScanFile rid) st).1 := by
  intro files
  induction files with
  | nil =>
      intro st h _ _
      exact ⟨h, by simp⟩
  | cons s fs ih =>
      intro st hWF hnodup hvalid
      rw [List.foldl_cons]
      have hWF2 := processScanFile_WF rid st s hWF
      have hgs := processScanFile_goodrow_self rid st s (hvalid s (List.mem_cons_self s fs))
      rw [List.map_cons, List.nodup_cons] at hnodup
      obtain ⟨hWFf, hgoodf⟩ := ih (processScanFile rid st s) hWF2 hnodup.2
        (fun t htm => hvalid t (List.mem_cons_of_mem s htm))
      refine ⟨hWFf, ?_⟩
      intro t htm
      rcases List.mem_cons.mp htm with rfl | htm2
      · exact foldl_preserves_goodrow rid fs (processScanFile rid st t) t hWF2 hgs hnodup.1
      · exact hgoodf t htm2

theorem phase1_noop (rid : Nat) (S : List String) :
    ∀ (fs : List ScanFile) (st : ScriptsTable × Nat × Nat),
      TableWF st.1 → (∀ s ∈ fs, GoodRow s st.1) → (∀ s ∈ fs, s.path ∈ S) →
      (∀ r ∈ st.1.rows, r.rootId = rid → r.missing = false → r.path ∈ S) →
      (fs.foldl (processScanFile rid) st).2 = st.2 ∧
      ∀ r ∈ (fs.foldl (processScanFile rid) st).1.rows,
        r.rootId = rid → r.missing = false → r.path ∈ S := by
  intro fs
  induction fs with
  | nil =>
      intro st _ _ _ hpost
      exact ⟨rfl, hpost⟩
  | cons s fs ih =>
      intro st hWF hgood hS hpost
      rw [List.foldl_cons]
      have hgs := hgood s (List.mem_cons_self s fs)
      have hc1 : (processScanFile rid st s).2 = st.2 :=
        processScanFile_counts_of_good rid st s hgs
      obtain ⟨hc2, hpost2⟩ := ih (processScanFile rid st s)
        (processScanFile_WF rid st s hWF)
        (fun t htm => processScanFile_goodrow_all_of_good rid st s t hgs
          (hgood t (List.mem_cons_of_mem s htm)))
        (fun t htm => hS t (List.mem_cons_of_mem s htm))
        (processScanFile_post rid S st s hWF hgs (hS s (List.mem_cons_self s fs)) hpost)
      exact ⟨by rw [hc2, hc1], hpost2⟩

/-- Marking condition of the closed-form missing-marking map. -/
def markCond (rid : Nat) (S : List String) (tbl : ScriptsTable) (r : Script) : Bool :=
  (tbl.rows.filter (fun x => x.rootId = rid ∧ x.missing = false)).any
    (fun t => decide (t.path ∉ S) && decide (t.id = r.id))

theorem markMissingPhase_rows_eq (rid : Nat) (S : List String) (tbl : ScriptsTable) :
    markMissingPhase rid S tbl =
      ({ tbl with rows := tbl.rows.map (fun r =>
          if markCond rid S tbl r then { r with missing := true } else r) },
       ((tbl.rows.filter (fun x => x.rootId = rid ∧ x.missing = false)).filter
          (fun t => decide (t.path ∉ S))).length) := by
  unfold markMissingPhase
  rw [markMissing_foldl]
  rw [Nat.zero_add]
  exact rfl

theorem markMissingPhase_WF (rid : Nat) (S : List String) (tbl : ScriptsTable)
    (h : TableWF tbl) : TableWF (markMissingPhase rid S tbl).1 := by
  obtain ⟨hnd, hlt⟩ := h
  rw [markMissingPhase_rows_eq]
  constructor
  · dsimp only
    rw [List.map_map]
    have heq : ((fun r : Script => r.id) ∘
          fun r => if markCond rid S tbl r then { r with missing := true } else r)
        = fun r : Script => r.id := by
      funext r
      by_cases hc : markCond rid S tbl r = true <;> simp [Function.comp, hc]
    rw [heq]
    exact hnd
  · intro r hr
    dsimp only at hr ⊢
    obtain ⟨r0, hr0, rfl⟩ := List.mem_map.mp hr
    by_cases hc : markCond rid S tbl r0 = true
    · rw [if_pos hc]
      exact hlt r0 hr0
    · rw [if_neg hc]
      exact hlt r0 hr0

theorem markMissingPhase_goodrow (rid : Nat) (S : List String) (tbl : ScriptsTable)
    (t : ScanFile) (h : GoodRow t tbl) : GoodRow t (markMissingPhase rid S tbl).1 := by
  obtain ⟨r, hr, hrh, hrm⟩ := h
  rw [markMissingPhase_rows_eq]
  refine ⟨if markCond rid S tbl r then { r with missing := true } else r, ?_, ?_, ?_⟩
  · show (tbl.rows.map fun x =>
        if markCond rid S tbl x then { x with missing := true } else x).find?
        (fun x => x.path = t.path) = _
    rw [find?_map_of_path_eq _
        (fun x => by by_cases hc : markCond rid S tbl x = true <;> simp [hc])
        t.path tbl.rows, hr]
    rfl
  · by_cases hc : markCond rid S tbl r = true
    · rw [if_pos hc]
      exact hrh
    · rw [if_neg hc]
      exact hrh
  · by_cases hc : markCond rid S tbl r = true
    · rw [if_pos hc]
      exact hrm
    · rw [if_neg hc]
      exact hrm

theorem markMissingPhase_post (rid : Nat) (S : List String) (tbl : ScriptsTable) :
    ∀ r ∈ (markMissingPhase rid S tbl).1.rows,
      r.rootId = rid → r.missing = false → r.path ∈ S := by
  rw [markMissingPhase_rows_eq]
  intro r hr hroot hmiss
  dsimp only at hr
  obtain ⟨r0, hr0, rfl⟩ := List.mem_map.mp hr
  by_cases hc : markCond rid S tbl r0 = true
  · rw [if_pos hc] at hmiss
    simp at hmiss
  · rw [if_neg hc] at hroot hmiss ⊢
    by_contra hnin
    apply hc
    simp only [markCond, List.any_eq_true]
    refine ⟨r0, List.mem_filter.mpr ⟨hr0, decide_eq_true ⟨hroot, hmiss⟩⟩, ?_⟩
    rw [Bool.and_eq_true]
    exact ⟨decide_eq_true hnin, decide_eq_true rfl⟩

theorem markMissingPhase_count_zero (rid : Nat) (S : List String) (tbl : ScriptsTable)
    (hpost : ∀ r ∈ tbl.rows, r.rootId = rid → r.missing = false → r.path ∈ S) :
    (markMissingPhase rid S tbl).2 = 0 := by
  rw [markMissingPhase_rows_eq]
  dsimp only
  have hnil : (tbl.rows.filter (fun x => x.rootId = rid ∧ x.missing = false)).filter
      (fun t => decide (t.path ∉ S)) = [] := by
    rw [List.filter_eq_nil_iff]
    intro t htm
    obtain ⟨htmem, hcond⟩ := List.mem_filter.mp htm
    have hcond2 := of_decide_eq_true hcond
    intro hdec
    exact (of_decide_eq_true hdec) (hpost t htmem hcond2.1 hcond2.2)
  rw [hnil]
  rfl

/-- C3: scanning a root and then scanning it again with the same walk
result (the filesystem unchanged in between) finishes the second scan
with `newCount = 0`, `updatedCount = 0` and `deletedCount = 0`, for any
starting catalog with unique primary keys below the AUTOINCREMENT
counter, any walk result with distinct paths, and valid timestamps. -/
theorem scan_idempotent (rid : Nat) (files : List ScanFile) (tbl : ScriptsTable)
    (hWF : TableWF tbl)
    (hnodup : (files.map (fun s => s.path)).Nodup)
    (hvalid : ∀ s ∈ files, ValidDT s.mtime) :
    (performScan rid files (performScan rid files tbl).1).2 = ⟨0, 0, 0⟩ := by
  obtain ⟨hWF1, hgood1⟩ := phase1_establishes rid files (tbl, 0, 0) hWF hnodup hvalid
  have hWF2 := markMissingPhase_WF rid (files.map (fun s => s.path))
    (files.foldl (processScanFile rid) (tbl, 0, 0)).1 hWF1
  have hgood2 : ∀ s ∈ files, GoodRow s (markMissingPhase rid (files.map (fun s => s.path))
      (files.foldl (processScanFile rid) (tbl, 0, 0)).1).1 :=
    fun s hs => markMissingPhase_goodrow rid (files.map (fun s => s.path))
      (files.foldl (processScanFile rid) (tbl, 0, 0)).1 s (hgood1 s hs)
  have hpost2 := markMissingPhase_post rid (files.map (fun s => s.path))
    (files.foldl (processScanFile rid) (tbl, 0, 0)).1
  obtain ⟨hc, hpost3⟩ := phase1_noop rid (files.map (fun s => s.path)) files
    ((markMissingPhase rid (files.map (fun s => s.path))
      (files.foldl (processScanFile rid) (tbl, 0, 0)).1).1, 0, 0)
    hWF2 hgood2 (fun s hs => List.mem_map_of_mem (fun s => s.path) hs) hpost2
  have hzero := markMissingPhase_count_zero rid (files.map (fun s => s.path))
    (files.foldl (processScanFile rid)
      ((markMissingPhase rid (files.map (fun s => s.path))
        (files.foldl (processScanFile rid) (tbl, 0, 0)).1).1, 0, 0)).1 hpost3
  simp only [performScan]
  rw [hzero]
  rw [show (files.foldl (processScanFile rid)
      ((markMissingPhase rid (files.map (fun s => s.path))
        (files.foldl (processScanFile rid) (tbl, 0, 0)).1).1, 0, 0)).2
      = ((0 : Nat), (0 : Nat)) from hc]

theorem scan_idempotent_witness :
    TableWF ⟨[], 1⟩
    ∧ ValidDT ⟨2024, 1, 2, 3, 4, 5, 6, Option.none⟩
    ∧ (performScan 1
        [⟨"/r/a.py", "a.py", ".py", some "Python", 10,
          ⟨2024, 1, 2, 3, 4, 5, 6, Option.none⟩, "sha256:x", 2⟩]
        (performScan 1
          [⟨"/r/a.py", "a.py", ".py", some "Python", 10,
            ⟨2024, 1, 2, 3, 4, 5, 6, Option.none⟩, "sha256:x", 2⟩]
          ⟨[], 1⟩).1).2 = ⟨0, 0, 0⟩ :=
  ⟨by decide, by decide,
    scan_idempotent 1
      [⟨"/r/a.py", "a.py", ".py", some "Python", 10,
        ⟨2024, 1, 2, 3, 4, 5, 6, Option.none⟩, "sha256:x", 2⟩]
      ⟨[], 1⟩ (by decide) (by decide) (by decide)⟩

/-- Total unprocessed b-side length of the queue. -/
def queueMeasureB (q : List (Int × Int × Int × Int)) : Nat :=
  (q.map (fun r => (r.2.2.2 - r.2.2.1).toNat)).sum

theorem sumMatchSizes_append (xs ys : List (Int × Int × Int)) :
    sumMatchSizes (xs ++ ys) = sumMatchSizes xs + sumMatchSizes ys := by
  simp [sumMatchSizes]

theorem sumMatchSizes_cons (x : Int × Int × Int) (xs : List (Int × Int × Int)) :
    sumMatchSizes (x :: xs) = x.2.2 + sumMatchSizes xs := by
  simp [sumMatchSizes]

theorem matchingLoop_sum_le (a b : Array Char) (b2j : List (Char × List Int)) :
    ∀ (fuel : Nat) (q : List (Int × Int × Int × Int)) (acc : List (Int × Int × Int)),
      sumMatchSizes (matchingLoop a b b2j fuel q acc)
          ≤ sumMatchSizes acc + (queueMeasure q : Int) ∧
      sumMatchSizes (matchingLoop a b b2j fuel q acc)
          ≤ sumMatchSizes acc + (queueMeasureB q : Int) ∧
      sumMatchSizes acc ≤ sumMatchSizes (matchingLoop a b b2j fuel q acc) := by
  intro fuel
  induction fuel with
  | zero =>
      intro q acc
      cases q with
      | nil =>
          rw [matchingLoop]
          exact ⟨le_add_of_nonneg_right (by positivity),
            le_add_of_nonneg_right (by positivity), le_refl _⟩
      | cons w rest =>
          obtain ⟨alo, ahi, blo, bhi⟩ := w
          rw [matchingLoop]
          exact ⟨le_add_of_nonneg_right (by positivity),
            le_add_of_nonneg_right (by positivity), le_refl _⟩
  | succ fuel ih =>
      intro q acc
      cases q with
      | nil =>
          rw [matchingLoop]
          exact ⟨le_add_of_nonneg_right (by positivity),
            le_add_of_nonneg_right (by positivity), le_refl _⟩
      | cons w rest =>
          obtain ⟨alo, ahi, blo, bhi⟩ := w
          rw [matchingLoop]
          by_cases hk : (find_longest_match a b b2j alo ahi blo bhi).2.2 ≠ 0
          · rw [if_pos hk]
            obtain ⟨b1, _, b3⟩ := flm_bounds a b b2j alo ahi blo bhi
            obtain ⟨c1, c2, c3, c4⟩ := b3 hk
            obtain ⟨h1, h2, h3⟩ := ih
              (pushFlanks (find_longest_match a b b2j alo ahi blo bhi) alo ahi blo bhi rest)
              (acc ++ [find_longest_match a b b2j alo ahi blo bhi])
            rw [sumMatchSizes_append] at h1 h2 h3
            have hsing : sumMatchSizes [find_longest_match a b b2j alo ahi blo bhi]
                = (find_longest_match a b b2j alo ahi blo bhi).2.2 := by
              simp [sumMatchSizes]
            rw [hsing] at h1 h2 h3
            have hqa : (queueMeasure (pushFlanks (find_longest_match a b b2j alo ahi blo bhi)
                alo ahi blo bhi rest) : Int)
                + (find_longest_match a b b2j alo ahi blo bhi).2.2
                ≤ (queueMeasure ((alo, ahi, blo, bhi) :: rest) : Int) := by
              simp only [pushFlanks, queueMeasure, List.map_append, List.sum_append,
                List.map_cons, List.sum_cons, rangeSize]
              split <;> split <;>
                simp only [List.map_cons, List.sum_cons, List.map_nil, List.sum_nil,
                  rangeSize] <;>
                push_cast <;> omega
            have hqb : (queueMeasureB (pushFlanks (find_longest_match a b b2j alo ahi blo bhi)
                alo ahi blo bhi rest) : Int)
                + (find_longest_match a b b2j alo ahi blo bhi).2.2
                ≤ (queueMeasureB ((alo, ahi, blo, bhi) :: rest) : Int) := by
              simp only [pushFlanks, queueMeasureB, List.map_append, List.sum_append,
                List.map_cons, List.sum_cons]
              split <;> split <;>
                simp only [List.map_cons, List.sum_cons, List.map_nil, List.sum_nil] <;>
                push_cast <;> omega
            refine ⟨by omega, by omega, by omega⟩
          · rw [if_neg hk]
            obtain ⟨h1, h2, h3⟩ := ih rest acc
            have hma : (queueMeasure rest : Int) ≤ (queueMeasure ((alo, ahi, blo, bhi) :: rest) : Int) := by
              simp only [queueMeasure, List.map_cons, List.sum_cons]
              push_cast
              omega
            have hmb : (queueMeasureB rest : Int) ≤ (queueMeasureB ((alo, ahi, blo, bhi) :: rest) : Int) := by
              simp only [queueMeasureB, List.map_cons, List.sum_cons]
              push_cast
              omega
            exact ⟨by omega, by omega, h3⟩

theorem mergeAdjacent_sum (bs : List (Int × Int × Int)) :
    ∀ (i1 j1 k1 : Int),
      sumMatchSizes (mergeAdjacent (i1, j1, k1) bs) = k1 + sumMatchSizes bs := by
  induction bs with
  | nil =>
      intro i1 j1 k1
      rw [mergeAdjacent]
      by_cases hk : k1 ≠ 0
      · rw [if_pos hk]
        simp [sumMatchSizes]
      · rw [if_neg hk]
        push_neg at hk
        simp [sumMatchSizes, hk]
  | cons x rest ih =>
      intro i1 j1 k1
      obtain ⟨i2, j2, k2⟩ := x
      rw [mergeAdjacent]
      by_cases hadj : i1 + k1 = i2 ∧ j1 + k1 = j2
      · rw [if_pos hadj, ih, sumMatchSizes_cons]
        ring
      · rw [if_neg hadj, sumMatchSizes_append, ih, sumMatchSizes_cons]
        by_cases hk : k1 ≠ 0
        · rw [if_pos hk]
          simp only [sumMatchSizes, List.map_cons, List.sum_cons, List.map_nil, List.sum_nil]
          ring
        · rw [if_neg hk]
          push_neg at hk
          simp only [sumMatchSizes, List.map_nil, List.sum_nil, hk]

theorem sumMatchSizes_perm {bs cs : List (Int × Int × Int)} (h : bs.Perm cs) :
    sumMatchSizes bs = sumMatchSizes cs := by
  unfold sumMatchSizes
  exact (h.map (fun t => t.2.2)).sum_eq

theorem get_matching_blocks_sum (a b : Array Char) (b2j : List (Char × List Int)) :
    0 ≤ sumMatchSizes (get_matching_blocks a b b2j) ∧
    sumMatchSizes (get_matching_blocks a b b2j) ≤ (a.size : Int) ∧
    sumMatchSizes (get_matching_blocks a b b2j) ≤ (b.size : Int) := by
  unfold get_matching_blocks
  rw [sumMatchSizes_append]
  rw [mergeAdjacent_sum]
  rw [sumMatchSizes_perm (List.perm_insertionSort tripleLe _)]
  have hms := matchingLoop_sum_le a b b2j
    (loopFuel [(0, (a.size : Int), 0, (b.size : Int))])
    [(0, (a.size : Int), 0, (b.size : Int))] []
  obtain ⟨h1, h2, h3⟩ := hms
  have hq : (queueMeasure [(0, (a.size : Int), 0, (b.size : Int))] : Int) = (a.size : Int) := by
    simp [queueMeasure, rangeSize]
  have hqb : (queueMeasureB [(0, (a.size : Int), 0, (b.size : Int))] : Int) = (b.size : Int) := by
    simp [queueMeasureB]
  rw [hq] at h1
  rw [hqb] at h2
  have hacc : sumMatchSizes ([] : List (Int × Int × Int)) = 0 := by simp [sumMatchSizes]
  rw [hacc] at h1 h2 h3
  have hsent : sumMatchSizes [((a.size : Int), (b.size : Int), 0)] = 0 := by
    simp [sumMatchSizes]
  rw [hsent]
  refine ⟨by omega, by omega, by omega⟩

/-- Positions of a character in a list from a start offset, ascending:
the content of a b2j entry. -/
def posList (c : Char) : Nat → List Char → List Int
  | _, [] => []
  | k, d :: cs => (if d = c then [((k : Nat) : Int)] else []) ++ posList c (k + 1) cs

theorem b2jGet_cons (k : Char) (v : List Int) (m : List (Char × List Int)) (c : Char) :
    b2jGet ((k, v) :: m) c = if k = c then v else b2jGet m c := by
  unfold b2jGet
  by_cases h : k = c
  · rw [show List.find? (fun kv : Char × List Int => decide (kv.1 = c)) ((k, v) :: m)
        = some (k, v) from List.find?_cons_of_pos _ (decide_eq_true h), if_pos h]
  · rw [show List.find? (fun kv : Char × List Int => decide (kv.1 = c)) ((k, v) :: m)
        = List.find? (fun kv : Char × List Int => decide (kv.1 = c)) m from
        List.find?_cons_of_neg _ (fun hh => h (of_decide_eq_true hh)), if_neg h]

theorem b2jGet_assocAppend (m : List (Char × List Int)) (c c' : Char) (i : Int) :
    b2jGet (assocAppend m c i) c' =
      if c' = c then b2jGet m c' ++ [i] else b2jGet m c' := by
  induction m with
  | nil =>
      show b2jGet [(c, [i])] c' = _
      rw [b2jGet_cons]
      by_cases h : c' = c
      · rw [if_pos h.symm, if_pos h]
        rfl
      · rw [if_neg (fun hh => h hh.symm), if_neg h]
  | cons kv rest ih =>
      obtain ⟨k, v⟩ := kv
      rw [assocAppend]
      by_cases hk : k = c
      · rw [if_pos hk, b2jGet_cons, b2jGet_cons]
        by_cases h : c' = c
        · have hkc : k = c' := hk.trans h.symm
          simp only [if_pos hkc, if_pos h]
        · have hkc : ¬ k = c' := fun hh => h (hh.symm.trans hk)
          simp only [if_neg hkc, if_neg h]
      · rw [if_neg hk, b2jGet_cons, b2jGet_cons, ih]
        by_cases h1 : k = c'
        · have h2 : ¬ c' = c := fun h2 => hk (h1.trans h2)
          simp only [if_pos h1, if_neg h2]
        · simp only [if_neg h1]

theorem b2jGet_enumFold (c : Char) :
    ∀ (cs : List Char) (k : Nat) (m0 : List (Char × List Int)),
      b2jGet ((List.enumFrom k cs).foldl (fun m p => assocAppend m p.2 ((p.1 : Nat) : Int)) m0) c
        = b2jGet m0 c ++ posList c k cs := by
  intro cs
  induction cs with
  | nil =>
      intro k m0
      simp [List.enumFrom, posList]
  | cons d cs ih =>
      intro k m0
      rw [List.enumFrom, List.foldl_cons, ih, posList]
      rw [show b2jGet (assocAppend m0 d ((k : Nat) : Int)) c
          = if c = d then b2jGet m0 c ++ [((k : Nat) : Int)] else b2jGet m0 c from
        b2jGet_assocAppend m0 d c ((k : Nat) : Int)]
      by_cases h : c = d
      · rw [if_pos h, if_pos h.symm, List.append_assoc]
      · rw [if_neg h, if_neg (fun hh => h hh.symm), List.nil_append]

theorem posList_mem (c : Char) :
    ∀ (cs : List Char) (k : Nat) (j : Int), j ∈ posList c k cs →
      (k : Int) ≤ j ∧ j < (k : Int) + cs.length ∧ cs.getD (j - k).toNat ' ' = c := by
  intro cs
  induction cs with
  | nil =>
      intro k j hj
      simp [posList] at hj
  | cons d cs ih =>
      intro k j hj
      rw [posList] at hj
      rcases List.mem_append.mp hj with h1 | h2
      · have hjk : j = ((k : Nat) : Int) := by
          by_cases hd : d = c
          · rw [if_pos hd] at h1
            simpa using h1
          · rw [if_neg hd] at h1
            simp at h1
        have hd : d = c := by
          by_cases hd : d = c
          · exact hd
          · rw [if_neg hd] at h1
            simp at h1
        subst hjk
        refine ⟨le_refl _, by simp, ?_⟩
        simp [hd]
      · obtain ⟨ha, hb, hc2⟩ := ih (k + 1) j h2
        have hk1 : ((k + 1 : Nat) : Int) = (k : Int) + 1 := by push_cast; rfl
        rw [hk1] at ha hb
        refine ⟨by omega, by simp; omega, ?_⟩
        rw [show (j - (k : Int)).toNat = (j - ((k : Int) + 1)).toNat + 1 by omega]
        rw [List.getD_cons_succ]
        exact hc2

theorem posList_complete (c : Char) :
    ∀ (cs : List Char) (k : Nat) (t : Nat), t < cs.length → cs.getD t ' ' = c →
      (((k + t : Nat) : Nat) : Int) ∈ posList c k cs := by
  intro cs
  induction cs with
  | nil =>
      intro k t ht _
      simp at ht
  | cons d cs ih =>
      intro k t ht hc
      rw [posList]
      cases t with
      | zero =>
          apply List.mem_append_left
          rw [List.getD_cons_zero] at hc
          rw [if_pos hc]
          simp
      | succ t =>
          apply List.mem_append_right
          rw [List.getD_cons_succ] at hc
          have := ih (k + 1) t (by simpa using ht) hc
          rw [show k + (t + 1) = (k + 1) + t by omega]
          exact this

theorem posList_sorted (c : Char) :
    ∀ (cs : List Char) (k : Nat), List.Pairwise (· < ·) (posList c k cs) := by
  intro cs
  induction cs with
  | nil =>
      intro k
      simp [posList]
  | cons d cs ih =>
      intro k
      rw [posList]
      by_cases hd : d = c
      · rw [if_pos hd]
        rw [List.singleton_append, List.pairwise_cons]
        refine ⟨?_, ih (k + 1)⟩
        intro j hj
        have := (posList_mem c cs (k + 1) j hj).1
        push_cast at this ⊢
        omega
      · rw [if_neg hd, List.nil_append]
        exact ih (k + 1)

theorem assocAppend_keys_sub (c : Char) (i : Int) :
    ∀ (m : List (Char × List Int)) (x : Char),
      x ∈ (assocAppend m c i).map Prod.fst → x ∈ m.map Prod.fst ∨ x = c := by
  intro m
  induction m with
  | nil =>
      intro x hx
      simp [assocAppend] at hx
      exact Or.inr hx
  | cons kv rest ih =>
      obtain ⟨k, v⟩ := kv
      intro x hx
      rw [assocAppend] at hx
      by_cases hk : k = c
      · rw [if_pos hk] at hx
        simp only [List.map_cons, List.mem_cons] at hx
        rcases hx with rfl | hx
        · exact Or.inl (by simp)
        · exact Or.inl (by simp [hx])
      · rw [if_neg hk] at hx
        simp only [List.map_cons, List.mem_cons] at hx
        rcases hx with rfl | hx
        · exact Or.inl (by simp)
        · rcases ih x hx with h | h
          · exact Or.inl (by simp [h])
          · exact Or.inr h

theorem assocAppend_keys_nodup (c : Char) (i : Int) :
    ∀ (m : List (Char × List Int)), (m.map Prod.fst).Nodup →
      ((assocAppend m c i).map Prod.fst).Nodup := by
  intro m
  induction m with
  | nil =>
      intro _
      simp [assocAppend]
  | cons kv rest ih =>
      obtain ⟨k, v⟩ := kv
      intro hnd
      rw [List.map_cons, List.nodup_cons] at hnd
      rw [assocAppend]
      by_cases hk : k = c
      · rw [if_pos hk]
        rw [List.map_cons, List.nodup_cons]
        exact hnd
      · rw [if_neg hk]
        rw [List.map_cons, List.nodup_cons]
        refine ⟨?_, ih hnd.2⟩
        intro hmem
        rcases assocAppend_keys_sub c i rest k hmem with h | h
        · exact hnd.1 h
        · exact hk h

theorem enumFold_keys_nodup :
    ∀ (ps : List (Nat × Char)) (m0 : List (Char × List Int)),
      (m0.map Prod.fst).Nodup →
      (((ps.foldl (fun m p => assocAppend m p.2 ((p.1 : Nat) : Int)) m0)).map Prod.fst).Nodup := by
  intro ps
  induction ps with
  | nil =>
      intro m0 h
      exact h
  | cons p ps ih =>
      intro m0 h
      rw [List.foldl_cons]
      exact ih _ (assocAppend_keys_nodup _ _ m0 h)

theorem b2jGet_eq_nil_of_not_mem (c : Char) :
    ∀ (m : List (Char × List Int)), c ∉ m.map Prod.fst → b2jGet m c = [] := by
  intro m
  induction m with
  | nil =>
      intro _
      rfl
  | cons kv rest ih =>
      obtain ⟨k, v⟩ := kv
      intro h
      simp only [List.map_cons, List.mem_cons] at h
      push_neg at h
      rw [b2jGet_cons, if_neg (fun hh => h.1 hh.symm)]
      exact ih h.2

theorem b2jGet_filter (P : Char × List Int → Bool) (c : Char) :
    ∀ (m : List (Char × List Int)), (m.map Prod.fst).Nodup →
      b2jGet (m.filter P) c = b2jGet m c ∨ b2jGet (m.filter P) c = [] := by
  intro m
  induction m with
  | nil =>
      intro _
      exact Or.inl rfl
  | cons kv rest ih =>
      obtain ⟨k, v⟩ := kv
      intro hnd
      rw [List.map_cons, List.nodup_cons] at hnd
      rw [List.filter_cons]
      by_cases hP : P (k, v) = true
      · rw [if_pos hP, b2jGet_cons, b2jGet_cons]
        by_cases hk : k = c
        · rw [if_pos hk, if_pos hk]
          exact Or.inl rfl
        · rw [if_neg hk, if_neg hk]
          exact ih hnd.2
      · rw [if_neg hP, b2jGet_cons]
        by_cases hk : k = c
        · right
          apply b2jGet_eq_nil_of_not_mem
          intro hmem
          apply hnd.1
          obtain ⟨kv2, hkv2, hfst⟩ := List.mem_map.mp
            (by exact hmem : c ∈ (rest.filter P).map Prod.fst)
          exact hk ▸ List.mem_map.mpr ⟨kv2, List.mem_of_mem_filter hkv2, hfst⟩
        · rw [if_neg hk]
          exact ih hnd.2

theorem b2jGet_chainB (l : List Char) (c : Char) :
    b2jGet (chainB l) c = posList c 0 l ∨ b2jGet (chainB l) c = [] := by
  have hraw : b2jGet ((List.enumFrom 0 l).foldl
        (fun m p => assocAppend m p.2 ((p.1 : Nat) : Int)) []) c
      = posList c 0 l := by
    rw [b2jGet_enumFold]
    rfl
  unfold chainB
  by_cases hn : 200 ≤ l.length
  · rw [if_pos hn]
    have hnd := enumFold_keys_nodup (List.enumFrom 0 l) [] (by simp)
    rcases b2jGet_filter
        (fun kv => decide ¬(((l.length / 100 + 1 : Nat) : Int) < (kv.2.length : Int))) c _ hnd
      with h | h
    · exact Or.inl (h.trans hraw)
    · exact Or.inr h
  · rw [if_neg hn]
    exact Or.inl hraw

theorem b2jGet_chainB_sorted (l : List Char) (c : Char) :
    List.Pairwise (· < ·) (b2jGet (chainB l) c) := by
  rcases b2jGet_chainB l c with h | h
  · rw [h]
    exact posList_sorted c l 0
  · rw [h]
    simp

theorem b2jGet_chainB_mem (l : List Char) (c : Char) (j : Int)
    (h : j ∈ b2jGet (chainB l) c) :
    0 ≤ j ∧ j < (l.length : Int) ∧ l.getD j.toNat ' ' = c := by
  rcases b2jGet_chainB l c with h2 | h2
  · rw [h2] at h
    obtain ⟨ha, hb, hc2⟩ := posList_mem c l 0 j h
    refine ⟨by simpa using ha, by simpa using hb, ?_⟩
    simpa using hc2
  · rw [h2] at h
    simp at h

theorem b2jGet_chainB_complete (l : List Char) (t : Nat) (ht : t < l.length)
    (hne : b2jGet (chainB l) (l.getD t ' ') ≠ []) :
    ((t : Nat) : Int) ∈ b2jGet (chainB l) (l.getD t ' ') := by
  rcases b2jGet_chainB l (l.getD t ' ') with h | h
  · rw [h]
    have := posList_complete (l.getD t ' ') l 0 t ht rfl
    simpa using this
  · exact absurd h hne

/-- Length of the maximal kept-character run ending at an index, with
respect to the autojunk-purged position map: the exact value of the
diagonal j2len entries when both sequences are the same list. -/
def diagD (b2j : List (Char × List Int)) (l : List Char) : Nat → Nat
  | 0 => if b2jGet b2j (l.getD 0 ' ') ≠ [] then 1 else 0
  | i + 1 => if b2jGet b2j (l.getD (i + 1) ' ') ≠ [] then diagD b2j l i + 1 else 0

/-- Integer-indexed closure of `diagD`, zero below zero. -/
def Dz (b2j : List (Char × List Int)) (l : List Char) (j : Int) : Int :=
  if j < 0 then 0 else (diagD b2j l j.toNat : Int)

theorem Dz_nonneg (b2j : List (Char × List Int)) (l : List Char) (j : Int) :
    0 ≤ Dz b2j l j := by
  unfold Dz
  split
  · exact le_refl 0
  · positivity

theorem Dz_kept (b2j : List (Char × List Int)) (l : List Char) (j : Int)
    (h0 : 0 ≤ j) (hk : b2jGet b2j (l.getD j.toNat ' ') ≠ []) :
    Dz b2j l j = Dz b2j l (j - 1) + 1 := by
  cases ht2 : j.toNat with
  | zero =>
      have hj : j = 0 := by omega
      subst hj
      rw [show (0 : Int).toNat = 0 from rfl] at hk
      unfold Dz
      rw [if_neg (show ¬ (0 : Int) < 0 by decide),
        if_pos (show (0 : Int) - 1 < 0 by decide)]
      rw [show (0 : Int).toNat = 0 from rfl, diagD, if_pos hk]
      norm_num
  | succ t =>
      have hj : j = ((t : Nat) : Int) + 1 := by omega
      simp only [Dz]
      rw [if_neg (by omega), if_neg (by omega)]
      rw [show j.toNat = t + 1 from ht2]
      rw [show (j - 1).toNat = t by omega]
      rw [ht2] at hk
      rw [diagD, if_pos hk]
      push_cast
      ring

theorem Dz_not_kept (b2j : List (Char × List Int)) (l : List Char) (j : Int)
    (h0 : 0 ≤ j) (hk : ¬ b2jGet b2j (l.getD j.toNat ' ') ≠ []) :
    Dz b2j l j = 0 := by
  cases ht2 : j.toNat with
  | zero =>
      have hj : j = 0 := by omega
      subst hj
      rw [show (0 : Int).toNat = 0 from rfl] at hk
      simp only [Dz, diagD]
      rw [if_neg (by omega), if_neg hk]
      rfl
  | succ t =>
      simp only [Dz]
      rw [if_neg (by omega), show j.toNat = t + 1 from ht2]
      rw [ht2] at hk
      rw [diagD, if_neg hk]
      rfl

theorem j2lenGet_cons (j v : Int) (m : List (Int × Int)) (i : Int) :
    j2lenGet ((j, v) :: m) i = if j = i then v else j2lenGet m i := by
  unfold j2lenGet
  by_cases h : j = i
  · rw [show List.find? (fun p : Int × Int => decide (p.1 = i)) ((j, v) :: m)
        = some (j, v) from List.find?_cons_of_pos _ (decide_eq_true h), if_pos h]
  · rw [show List.find? (fun p : Int × Int => decide (p.1 = i)) ((j, v) :: m)
        = List.find? (fun p : Int × Int => decide (p.1 = i)) m from
        List.find?_cons_of_neg _ (fun hh => h (of_decide_eq_true hh)), if_neg h]

theorem toArray_getD (l : List Char) (k : Nat) (d : Char) :
    l.toArray.getD k d = l.getD k d := by
  unfold Array.getD
  split
  · next h =>
      rw [Array.get_eq_getElem, List.getElem_toArray]
      rw [List.getD_eq_getElem l d (by simpa using h)]
  · next h =>
      rw [List.getD_eq_default]
      simpa using h

/-- Inner-loop invariant of `find_longest_match` on a self-comparison
over the full window: every run value is bounded by the kept-run
lengths on both sides, the diagonal entry is exact, the best match
dominates all diagonal runs seen so far, and the best stays on the
diagonal. -/
theorem flmInner_diag (b2j : List (Char × List Int)) (l : List Char) (i : Int)
    (hi0 : 0 ≤ i) (hin : i < (l.length : Int))
    (hkept : b2jGet b2j (l.getD i.toNat ' ') ≠ [])
    (prev : List (Int × Int))
    (hprev : ∀ p ∈ prev, 0 ≤ p.2 ∧ p.2 ≤ Dz b2j l p.1 ∧ p.2 ≤ Dz b2j l (i - 1))
    (hprevd : j2lenGet prev (i - 1) = Dz b2j l (i - 1)) :
    ∀ (js : List Int) (acc : List (Int × Int)) (best : Int × Int × Int),
      List.Pairwise (· < ·) js →
      (∀ j ∈ js, 0 ≤ j ∧ j < (l.length : Int) ∧
        l.getD j.toNat ' ' = l.getD i.toNat ' ') →
      best.1 = best.2.1 → 0 ≤ best.2.2 →
      (∀ p ∈ acc, 0 ≤ p.2 ∧ p.2 ≤ Dz b2j l p.1 ∧ p.2 ≤ Dz b2j l i) →
      ((i ∈ js ∧ (∀ i2 : Int, i2 < i → Dz b2j l i2 ≤ best.2.2) ∧
          (∀ p ∈ acc, p.1 ≠ i)) ∨
       ((∀ j ∈ js, i < j) ∧ (∀ i2 : Int, i2 ≤ i → Dz b2j l i2 ≤ best.2.2) ∧
          j2lenGet acc i = Dz b2j l i)) →
      (flmInner 0 (l.length : Int) i prev js acc best).2.1
          = (flmInner 0 (l.length : Int) i prev js acc best).2.2.1 ∧
      0 ≤ (flmInner 0 (l.length : Int) i prev js acc best).2.2.2 ∧
      (∀ i2 : Int, i2 ≤ i →
        Dz b2j l i2 ≤ (flmInner 0 (l.length : Int) i prev js acc best).2.2.2) ∧
      (∀ p ∈ (flmInner 0 (l.length : Int) i prev js acc best).1,
        0 ≤ p.2 ∧ p.2 ≤ Dz b2j l p.1 ∧ p.2 ≤ Dz b2j l i) ∧
      j2lenGet (flmInner 0 (l.length : Int) i prev js acc best).1 i = Dz b2j l i := by
  intro js
  induction js with
  | nil =>
      intro acc best _ _ hbd hb0 hacc hdisj
      rw [flmInner]
      rcases hdisj with ⟨hmem, _, _⟩ | ⟨_, hdom, hget⟩
      · exact absurd hmem (List.not_mem_nil i)
      · exact ⟨hbd, hb0, hdom, hacc, hget⟩
  | cons j js ih =>
      intro acc best hpair hjs hbd hb0 hacc hdisj
      rw [List.pairwise_cons] at hpair
      obtain ⟨hjlt, hpair2⟩ := hpair
      obtain ⟨hj0, hjn, hjc⟩ := hjs j (List.mem_cons_self j js)
      have hjs2 : ∀ x ∈ js, 0 ≤ x ∧ x < (l.length : Int) ∧
          l.getD x.toNat ' ' = l.getD i.toNat ' ' :=
        fun x hx => hjs x (List.mem_cons_of_mem j hx)
      have hstep : flmInner 0 (l.length : Int) i prev (j :: js) acc best
          = flmInner 0 (l.length : Int) i prev js
              ((j, j2lenGet prev (j - 1) + 1) :: acc)
              (if best.2.2 < j2lenGet prev (j - 1) + 1
               then (i - (j2lenGet prev (j - 1) + 1) + 1,
                     j - (j2lenGet prev (j - 1) + 1) + 1,
                     j2lenGet prev (j - 1) + 1)
               else best) := by
        rw [flmInner, if_neg (show ¬ j < 0 by omega),
          if_neg (show ¬ (l.length : Int) ≤ j by omega)]
      have hw := j2lenGet_cases prev (j - 1)
      have hw0 : 0 ≤ j2lenGet prev (j - 1) := by
        rcases hw with h | h
        · rw [h]
        · exact (hprev _ h).1
      have hwD : j2lenGet prev (j - 1) ≤ Dz b2j l (j - 1) := by
        rcases hw with h | h
        · rw [h]
          exact Dz_nonneg b2j l (j - 1)
        · exact (hprev _ h).2.1
      have hwI : j2lenGet prev (j - 1) ≤ Dz b2j l (i - 1) := by
        rcases hw with h | h
        · rw [h]
          exact Dz_nonneg b2j l (i - 1)
        · exact (hprev _ h).2.2
      have hkeptj : b2jGet b2j (l.getD j.toNat ' ') ≠ [] := by
        rw [hjc]
        exact hkept
      have hkD : j2lenGet prev (j - 1) + 1 ≤ Dz b2j l j := by
        have := Dz_kept b2j l j hj0 hkeptj
        omega
      have hDi : Dz b2j l i = Dz b2j l (i - 1) + 1 := Dz_kept b2j l i hi0 hkept
      have hkI : j2lenGet prev (j - 1) + 1 ≤ Dz b2j l i := by omega
      have hacc2 : ∀ p ∈ (j, j2lenGet prev (j - 1) + 1) :: acc,
          0 ≤ p.2 ∧ p.2 ≤ Dz b2j l p.1 ∧ p.2 ≤ Dz b2j l i := by
        intro p hp
        rcases List.mem_cons.mp hp with rfl | hp2
        · exact ⟨by omega, hkD, hkI⟩
        · exact hacc p hp2
      rcases hdisj with ⟨hmem, hdom, hkey⟩ | ⟨hgt, hdom, hget⟩
      · by_cases hji : j = i
        · subst hji
          have hkval : j2lenGet prev (j - 1) + 1 = Dz b2j l j := by
            rw [hprevd]
            omega
          by_cases himp : best.2.2 < j2lenGet prev (j - 1) + 1
          · rw [hstep, if_pos himp]
            apply ih _ _ hpair2 hjs2 rfl (by dsimp only; omega) hacc2
            right
            refine ⟨hjlt, ?_, ?_⟩
            · intro i2 h2
              rcases lt_or_eq_of_le h2 with h3 | h3
              · have := hdom i2 h3
                dsimp only
                omega
              · subst h3
                dsimp only
                omega
            · rw [j2lenGet_cons, if_pos rfl]
              exact hkval
          · rw [hstep, if_neg himp]
            apply ih _ _ hpair2 hjs2 hbd hb0 hacc2
            right
            refine ⟨hjlt, ?_, ?_⟩
            · intro i2 h2
              rcases lt_or_eq_of_le h2 with h3 | h3
              · exact hdom i2 h3
              · subst h3
                omega
            · rw [j2lenGet_cons, if_pos rfl]
              exact hkval
        · have hmem2 : i ∈ js := by
            rcases List.mem_cons.mp hmem with h | h
            · exact absurd h.symm hji
            · exact h
          have hji2 : j < i := hjlt i hmem2
          have hnimp : ¬ best.2.2 < j2lenGet prev (j - 1) + 1 := by
            have h1 := hdom j hji2
            omega
          rw [hstep, if_neg hnimp]
          apply ih _ _ hpair2 hjs2 hbd hb0 hacc2
          left
          refine ⟨hmem2, hdom, ?_⟩
          intro p hp
          rcases List.mem_cons.mp hp with rfl | hp2
          · exact hji
          · exact hkey p hp2
      · have hji2 : i < j := hgt j (List.mem_cons_self j js)
        have hnimp : ¬ best.2.2 < j2lenGet prev (j - 1) + 1 := by
          have h1 := hdom i (le_refl i)
          omega
        rw [hstep, if_neg hnimp]
        apply ih _ _ hpair2 hjs2 hbd hb0 hacc2
        right
        refine ⟨fun x hx => hgt x (List.mem_cons_of_mem j hx), hdom, ?_⟩
        rw [j2lenGet_cons, if_neg (by omega)]
        exact hget

/-- Outer-loop invariant of the self-comparison dynamic-programming
sweep: the running best stays on the diagonal and dominates every
kept-run length seen so far. -/
theorem flmOuter_diag (l : List Char) :
    ∀ (cnt : Nat) (i : Int) (m : List (Int × Int)) (best : Int × Int × Int),
      0 ≤ i → i + (cnt : Int) = (l.length : Int) →
      (∀ p ∈ m, 0 ≤ p.2 ∧ p.2 ≤ Dz (chainB l) l p.1 ∧ p.2 ≤ Dz (chainB l) l (i - 1)) →
      j2lenGet m (i - 1) = Dz (chainB l) l (i - 1) →
      best.1 = best.2.1 → 0 ≤ best.2.2 →
      (∀ i2 : Int, i2 < i → Dz (chainB l) l i2 ≤ best.2.2) →
      (flmOuter l.toArray (chainB l) 0 (l.length : Int) i cnt m best).1
        = (flmOuter l.toArray (chainB l) 0 (l.length : Int) i cnt m best).2.1 ∧
      0 ≤ (flmOuter l.toArray (chainB l) 0 (l.length : Int) i cnt m best).2.2 ∧
      ∀ i2 : Int, i2 < (l.length : Int) →
        Dz (chainB l) l i2 ≤ (flmOuter l.toArray (chainB l) 0 (l.length : Int) i cnt m best).2.2 := by
  intro cnt
  induction cnt with
  | zero =>
      intro i m best h0 hsum hm hmd hbd hb0 hdom
      rw [flmOuter]
      have hin : i = (l.length : Int) := by push_cast at hsum; omega
      exact ⟨hbd, hb0, fun i2 h2 => hdom i2 (by omega)⟩
  | succ cnt ih =>
      intro i m best h0 hsum hm hmd hbd hb0 hdom
      have hin : i < (l.length : Int) := by push_cast at hsum; omega
      have hstep : flmOuter l.toArray (chainB l) 0 (l.length : Int) i (cnt + 1) m best
          = flmOuter l.toArray (chainB l) 0 (l.length : Int) (i + 1) cnt
              (flmInner 0 (l.length : Int) i m
                (b2jGet (chainB l) (l.getD i.toNat ' ')) [] best).1
              (flmInner 0 (l.length : Int) i m
                (b2jGet (chainB l) (l.getD i.toNat ' ')) [] best).2 := by
        rw [flmOuter, toArray_getD]
      by_cases hk : b2jGet (chainB l) (l.getD i.toNat ' ') ≠ []
      · have hi_mem : ((i.toNat : Nat) : Int) ∈ b2jGet (chainB l) (l.getD i.toNat ' ') :=
          b2jGet_chainB_complete l i.toNat (by omega) hk
        have hi_mem2 : i ∈ b2jGet (chainB l) (l.getD i.toNat ' ') := by
          rwa [Int.toNat_of_nonneg h0] at hi_mem
        obtain ⟨c1, c2, c3, c4, c5⟩ := flmInner_diag (chainB l) l i h0 hin hk m hm hmd
          (b2jGet (chainB l) (l.getD i.toNat ' ')) [] best
          (b2jGet_chainB_sorted l (l.getD i.toNat ' '))
          (fun j hj => b2jGet_chainB_mem l (l.getD i.toNat ' ') j hj)
          hbd hb0 (by intro p hp; simp at hp)
          (Or.inl ⟨hi_mem2, hdom, by intro p hp; simp at hp⟩)
        rw [hstep]
        apply ih (i + 1) _ _ (by omega) (by push_cast at hsum ⊢; omega)
        · intro p hp
          refine ⟨(c4 p hp).1, (c4 p hp).2.1, ?_⟩
          rw [show i + 1 - 1 = i by ring]
          exact (c4 p hp).2.2
        · rw [show i + 1 - 1 = i by ring]
          exact c5
        · exact c1
        · exact c2
        · intro i2 h2
          exact c3 i2 (by omega)
      · push_neg at hk
        have hDz0 : Dz (chainB l) l i = 0 :=
          Dz_not_kept (chainB l) l i h0 (fun hcon => hcon hk)
        rw [hk] at hstep
        rw [show flmInner 0 (l.length : Int) i m [] [] best
            = (([] : List (Int × Int)), best) from rfl] at hstep
        rw [hstep]
        apply ih (i + 1) [] best (by omega) (by push_cast at hsum ⊢; omega)
        · intro p hp
          simp at hp
        · rw [show i + 1 - 1 = i by ring]
          rw [show j2lenGet [] i = 0 from rfl]
          exact hDz0.symm
        · exact hbd
        · exact hb0
        · intro i2 h2
          rcases lt_or_eq_of_le (show i2 ≤ i by omega) with h3 | h3
          · exact hdom i2 h3
          · subst h3
            omega

/-- On a self-comparison a diagonal best match extends backwards all
the way to the window start: the character comparison is a comparison
of a position with itself. -/
theorem flmExtendLo_diag (a : Array Char) :
    ∀ (fuel : Nat) (d k : Int), d = (fuel : Int) → 0 ≤ k →
      flmExtendLo a a 0 0 fuel d d k = (0, 0, k + d) := by
  intro fuel
  induction fuel with
  | zero =>
      intro d k hd hk
      rw [flmExtendLo]
      have hd0 : d = 0 := by exact_mod_cast hd
      subst hd0
      norm_num
  | succ fuel ih =>
      intro d k hd hk
      rw [flmExtendLo, if_pos ⟨by omega, by omega, rfl⟩]
      rw [ih (d - 1) (k + 1) (by push_cast at hd ⊢; omega) (by omega)]
      rw [show k + 1 + (d - 1) = k + d by ring]

/-- On a self-comparison a diagonal match anchored at the window start
extends forwards to the full window. -/
theorem flmExtendHi_diag (a : Array Char) (n : Int) :
    ∀ (fuel : Nat) (k : Int), k + (fuel : Int) = n →
      flmExtendHi a a n n fuel 0 0 k = (0, 0, n) := by
  intro fuel
  induction fuel with
  | zero =>
      intro k hk
      rw [flmExtendHi]
      have hkn : k = n := by push_cast at hk; omega
      subst hkn
      rfl
  | succ fuel ih =>
      intro k hk
      rw [flmExtendHi, if_pos ⟨by push_cast at hk; omega, by push_cast at hk; omega, rfl⟩]
      exact ih (k + 1) (by push_cast at hk ⊢; omega)

/-- On a self-comparison `find_longest_match` over the full window
returns the full diagonal, autojunk purge notwithstanding: the
dynamic-programming best stays on the diagonal and the junk-free
extension loops extend it to the whole sequence. -/
theorem flm_refl (l : List Char) :
    find_longest_match l.toArray l.toArray (chainB l) 0 (l.length : Int) 0 (l.length : Int)
      = (0, 0, (l.length : Int)) := by
  simp only [find_longest_match]
  rw [show ((l.length : Int) - 0).toNat = l.length by omega]
  obtain ⟨hd, hb0, _⟩ := flmOuter_diag l l.length 0 [] (0, 0, 0) le_rfl (by ring)
    (by intro p hp; simp at hp)
    (by norm_num [Dz, j2lenGet])
    rfl (le_refl 0)
    (by intro i2 h2; unfold Dz; rw [if_pos h2])
  have hB := flmOuter_inv l.toArray (chainB l) 0 0 (l.length : Int) (l.length : Int)
    l.length 0 [] (0, 0, 0) le_rfl (by omega)
    (by intro p hp; simp at hp)
    ⟨le_refl 0, fun _ => ⟨rfl, rfl⟩, fun h => absurd rfl h⟩
  set D := flmOuter l.toArray (chainB l) 0 (l.length : Int) 0 l.length [] (0, 0, 0) with hDdef
  obtain ⟨b1, b2, b3⟩ := hB
  have hd0 : 0 ≤ D.1 ∧ D.1 + D.2.2 ≤ (l.length : Int) := by
    by_cases hk : D.2.2 = 0
    · obtain ⟨e1, e2⟩ := b2 hk
      constructor
      · omega
      · omega
    · obtain ⟨a1, a2, a3, a4⟩ := b3 hk
      exact ⟨a1, a3⟩
  rw [show D.1 - 0 = D.1 by ring]
  rw [← hd]
  rw [flmExtendLo_diag l.toArray D.1.toNat D.1 D.2.2 (Int.toNat_of_nonneg hd0.1).symm b1]
  dsimp only
  rw [show (l.length : Int) - (0 + (D.2.2 + D.1)) = (l.length : Int) - (D.2.2 + D.1) by ring]
  exact flmExtendHi_diag l.toArray (l.length : Int)
    ((l.length : Int) - (D.2.2 + D.1)).toNat (D.2.2 + D.1) (by omega)

theorem get_matching_blocks_refl (l : List Char) (hl : l ≠ []) :
    get_matching_blocks l.toArray l.toArray (chainB l)
      = [(0, 0, (l.length : Int)), ((l.length : Int), (l.length : Int), 0)] := by
  have hn0 : (l.length : Int) ≠ 0 := by
    intro h
    apply hl
    apply List.length_eq_zero.mp
    exact_mod_cast h
  simp only [get_matching_blocks, Array.size_toArray]
  have hfuel : loopFuel [((0 : Int), (l.length : Int), 0, (l.length : Int))]
      = 2 * l.length + 1 := by
    simp [loopFuel, queueMeasure, rangeSize]
  rw [hfuel]
  rw [matchingLoop]
  rw [flm_refl]
  rw [if_pos (show ((0 : Int), (0 : Int), (l.length : Int)).2.2 ≠ 0 from hn0)]
  have hpf : pushFlanks ((0 : Int), (0 : Int), (l.length : Int))
      0 (l.length : Int) 0 (l.length : Int) [] = [] := by
    unfold pushFlanks
    rw [if_neg (by dsimp only; omega), if_neg (by dsimp only; omega)]
    rfl
  rw [hpf]
  rw [matchingLoop]
  rw [List.nil_append]
  rw [show List.insertionSort tripleLe [((0 : Int), (0 : Int), (l.length : Int))]
      = [((0 : Int), (0 : Int), (l.length : Int))] from rfl]
  rw [mergeAdjacent, if_pos ⟨by ring, by ring⟩]
  rw [mergeAdjacent, if_pos (show (0 : Int) + (l.length : Int) ≠ 0 by omega)]
  rw [show (0 : Int) + (l.length : Int) = (l.length : Int) by ring]
  rfl

theorem calculate_similarity_self (s : String) : calculate_similarity s s = 1 := by
  by_cases h : s.data = []
  · simp only [calculate_similarity, h]
    rfl
  · have hrefl := get_matching_blocks_refl s.data h
    have hn0 : (s.data.length : Int) ≠ 0 := by
      intro hc
      apply h
      apply List.length_eq_zero.mp
      exact_mod_cast hc
    simp only [calculate_similarity]
    rw [hrefl, Array.size_toArray]
    have hsum : sumMatchSizes [((0 : Int), (0 : Int), (s.data.length : Int)),
        ((s.data.length : Int), (s.data.length : Int), 0)] = (s.data.length : Int) := by
      simp [sumMatchSizes]
    rw [hsum]
    unfold _calculate_ratio
    rw [if_pos (show (s.data.length : Int) + (s.data.length : Int) ≠ 0 by omega)]
    rw [Rat.mkRat_eq_div]
    rw [show ((s.data.length : Int) + (s.data.length : Int)).toNat = 2 * s.data.length by omega]
    rw [show ((2 * (s.data.length : Int) : Int) : ℚ) = ((2 * s.data.length : Nat) : ℚ) by
      push_cast; ring]
    apply div_self
    exact Nat.cast_ne_zero.mpr (by omega)

theorem calculate_similarity_bounds (A B : String) :
    0 ≤ calculate_similarity A B ∧ calculate_similarity A B ≤ 1 := by
  obtain ⟨h0, ha, hb⟩ := get_matching_blocks_sum A.data.toArray B.data.toArray (chainB B.data)
  simp only [calculate_similarity]
  unfold _calculate_ratio
  by_cases hT : ((A.data.toArray.size : Int) + (B.data.toArray.size : Int)) ≠ 0
  · rw [if_pos hT]
    have hTpos : 0 < (A.data.toArray.size : Int) + (B.data.toArray.size : Int) := by
      omega
    have htn : (((A.data.toArray.size : Int) + (B.data.toArray.size : Int)).toNat : Int)
        = (A.data.toArray.size : Int) + (B.data.toArray.size : Int) := by
      omega
    rw [Rat.mkRat_eq_div]
    constructor
    · apply div_nonneg
      · exact_mod_cast by omega
      · positivity
    · rw [div_le_one (by exact_mod_cast by omega)]
      have h2 : 2 * sumMatchSizes (get_matching_blocks A.data.toArray B.data.toArray
          (chainB B.data)) ≤ (((A.data.toArray.size : Int) + (B.data.toArray.size : Int)).toNat : Int) := by
        omega
      exact_mod_cast h2
  · rw [if_neg hT]
    norm_num

/-- C2 (amended): the similarity score is reflexively 1 — including
sequences long enough to trigger the autojunk purge — and every score
lies between 0 and 1; symmetry, however, does not hold in general
(`similarity_not_symmetric`). -/
theorem similarity_refl_and_bounded (A B : String) :
    calculate_similarity A A = 1 ∧
    0 ≤ calculate_similarity A B ∧ calculate_similarity A B ≤ 1 :=
  ⟨calculate_similarity_self A, (calculate_similarity_bounds A B).1,
    (calculate_similarity_bounds A B).2⟩

end ScriptManager
